import Mathlib

/-!
Verification of the skeletal binding and deformation engine of the CA_project
repository (quadruped rigging: skeleton model, bone classifier, skinning
weight calculator, linear-blend-skinning deformer).

The Python source is shallowly embedded over exact rationals:

* Python floats become `ℚ`; decimal literals such as `0.04` become the exact
  rationals they denote (`4/100`).
* Euclidean distances appear in the source only inside comparisons
  (`dist < radius`, `dist < closest`) and inside the even power
  `(dist / min_d) ** 2`.  Both are expressed exactly through *squared*
  distances: for `r ≥ 0` one has `sqrt q < r ↔ q < r ^ 2`, comparisons of two
  distances agree with comparisons of their squares, and
  `(dist / min_d) ** 2 = q / max (q₀, 1e-6)` where `q`, `q₀` are the squared
  distances (`max (sqrt q₀, 0.001) ^ 2 = max q₀ (1e-6)`).  The embedding
  therefore carries squared distances everywhere.
* The single genuinely irrational operation, the shoulder-blend exponent
  `(dist / min_d) ** 1.5`, is abstracted as a parameter
  `pw : ℚ → ℚ` applied to the exact squared ratio (`pw r` stands for
  `r ** 0.75`); theorems that touch the shoulder path hold for every `pw`
  that is nonnegative on nonnegative inputs, which `r ↦ r ** 0.75` is.
* `numpy` 4×4 matrices become `Matrix (Fin 4) (Fin 4) ℚ`;
  `np.linalg.inv` with the source's identity fallback on singular input
  becomes `m4inv` below.
-/

/-- 3-component vector over `ℚ`, embedding `utils/math_utils.py` `Vector3`
(whose components are floats). -/
structure V3 where
  x : ℚ
  y : ℚ
  z : ℚ
deriving DecidableEq, Repr

instance : Zero V3 := ⟨⟨0, 0, 0⟩⟩
instance : Add V3 := ⟨fun a b => ⟨a.x + b.x, a.y + b.y, a.z + b.z⟩⟩
instance : Sub V3 := ⟨fun a b => ⟨a.x - b.x, a.y - b.y, a.z - b.z⟩⟩
instance : Neg V3 := ⟨fun a => ⟨-a.x, -a.y, -a.z⟩⟩
instance : SMul ℚ V3 := ⟨fun q a => ⟨q * a.x, q * a.y, q * a.z⟩⟩

@[simp] theorem V3.zero_x : (0 : V3).x = 0 := rfl

@[simp] theorem V3.zero_y : (0 : V3).y = 0 := rfl

@[simp] theorem V3.zero_z : (0 : V3).z = 0 := rfl

theorem V3.add_def (a b : V3) : a + b = ⟨a.x + b.x, a.y + b.y, a.z + b.z⟩ := rfl

theorem V3.sub_def (a b : V3) : a - b = ⟨a.x - b.x, a.y - b.y, a.z - b.z⟩ := rfl

theorem V3.neg_def (a : V3) : -a = ⟨-a.x, -a.y, -a.z⟩ := rfl

/-- Dot product (`Vector3.dot`). -/
def dotV (a b : V3) : ℚ := a.x * b.x + a.y * b.y + a.z * b.z

/-- Squared Euclidean distance (`Vector3.distance` squared; the source takes
the square root, which the embedding keeps squared, see the header comment). -/
def dist2 (a b : V3) : ℚ := (a.x - b.x) ^ 2 + (a.y - b.y) ^ 2 + (a.z - b.z) ^ 2

theorem dist2_nonneg (a b : V3) : 0 ≤ dist2 a b := by
  have hx := sq_nonneg (a.x - b.x)
  have hy := sq_nonneg (a.y - b.y)
  have hz := sq_nonneg (a.z - b.z)
  unfold dist2
  linarith

/-- 4×4 rational matrix, embedding `utils/math_utils.py` `Matrix4`. -/
abbrev M4 := Matrix (Fin 4) (Fin 4) ℚ

/-- `Matrix4.translation` : identity with the translation vector in the last
column. -/
def transM (c : V3) : M4 := Matrix.of fun i j =>
  if i = j then 1
  else if j = 3 then
    (if i = 0 then c.x else if i = 1 then c.y
     else if i = 2 then c.z else 0)
  else 0

theorem transM_zero : transM 0 = 1 := by
  ext i j
  fin_cases i <;> fin_cases j <;>
    simp [transM, Matrix.one_apply]

theorem transM_mul (a b : V3) :
    transM a * transM b = transM (a + b) := by
  ext i j
  fin_cases i <;> fin_cases j <;>
    simp [transM, Matrix.mul_apply, Fin.sum_univ_four, V3.add_def] <;>
    ring

/-- `Matrix4.inverse` / the deformer's `np.linalg.inv` wrapped in
`try ... except`: the true inverse when the matrix is nonsingular, the
identity matrix otherwise. -/
def m4inv (A : M4) : M4 := if A.det = 0 then 1 else A.det⁻¹ • A.adjugate

theorem m4inv_eq_inv {A : M4} (h : A.det ≠ 0) : m4inv A = A⁻¹ := by
  rw [m4inv, if_neg h, Matrix.inv_def, Ring.inverse_eq_inv]

theorem m4inv_of_right_inv {A B : M4} (h : A * B = 1) : m4inv A = B := by
  have hdet : A.det * B.det = 1 := by
    rw [← Matrix.det_mul, h, Matrix.det_one]
  have hA : A.det ≠ 0 := left_ne_zero_of_mul_eq_one hdet
  rw [m4inv_eq_inv hA, Matrix.inv_eq_right_inv h]

theorem V3.add_neg (a : V3) : a + -a = 0 := by
  cases a
  show V3.mk _ _ _ = _
  simp [V3.neg_def]
  rfl

theorem transM_mul_neg (c : V3) : transM c * transM (-c) = 1 := by
  rw [transM_mul, V3.add_neg, transM_zero]

theorem m4inv_transM (c : V3) : m4inv (transM c) = transM (-c) :=
  m4inv_of_right_inv (transM_mul_neg c)

/-- Homogeneous coordinates of a vertex (`np.hstack([v, 1])`). -/
def homo (v : V3) : Fin 4 → ℚ := ![v.x, v.y, v.z, 1]

/-- Drop the W component after summation (`result[:, :3]`). -/
def dropW (u : Fin 4 → ℚ) : V3 := ⟨u 0, u 1, u 2⟩

theorem dropW_homo (v : V3) : dropW (homo v) = v := by
  cases v; rfl

theorem transM_mulVec_homo (c : V3) (v : V3) :
    (transM c).mulVec (homo v) = homo (v + c) := by
  funext k
  fin_cases k <;>
    simp [transM, homo, Matrix.mulVec, Matrix.dotProduct,
      Fin.sum_univ_four, V3.add_def]

/-!
Bone-name normalization and region classification,
embedding `skinning/bone_classifier.py` (`BoneClassifier.REGION_KEYWORDS`,
`classify_bones`) and the identical tables and loop duplicated in
`skinning/weight_calculator.py` (`WeightCalculatorV15.region_keywords`,
`_classify_bones`).  Names are embedded as `List Char`.
-/

/-- Python `str.startswith` on character lists (helper for substring test). -/
def startsWithL : List Char → List Char → Bool
  | [], _ => true
  | _ :: _, [] => false
  | p :: ps, c :: cs => p = c && startsWithL ps cs

/-- Python substring containment `pat in s`. -/
def hasSub (pat : List Char) : List Char → Bool
  | [] => startsWithL pat []
  | c :: cs => startsWithL pat (c :: cs) || hasSub pat cs

/-- `str.lower()`. -/
def toLowerL (s : List Char) : List Char := s.map Char.toLower

/-- `.replace('_', '').replace('-', '')`. -/
def stripSeps (s : List Char) : List Char :=
  (s.filter (fun c => c ≠ '_')).filter (fun c => c ≠ '-')

/-- `.replace('to', '')`: left-to-right non-overlapping removal of `"to"`. -/
def removeTo : List Char → List Char
  | [] => []
  | 't' :: 'o' :: rest => removeTo rest
  | c :: rest => c :: removeTo rest

/-- The source's bone-name normalization
`bone.name.lower().replace('_', '').replace('-', '').replace('to', '')`. -/
def normName (s : List Char) : List Char := removeTo (stripSeps (toLowerL s))

/-- Anatomical region vocabulary (the string tags of the source). -/
inductive Region where
  | head | neck | spine | tail
  | back_leg_L | back_leg_R | front_leg_L | front_leg_R
  | ankle_BL | ankle_BR | ankle_FL | ankle_FR
deriving DecidableEq, Repr

def kwRigHead : List Char := "righead".data

def kwRigJaw : List Char := "rigjaw".data

def kwRigTongue : List Char := "rigtongue".data

def kwRigEyelid : List Char := "rigeyelid".data

def kwRigEar : List Char := "rigear".data

def kwRigNeck : List Char := "rigneck".data

def kwRigRoot : List Char := "rigroot".data

def kwRigPelvis : List Char := "rigpelvis".data

def kwRigSpine : List Char := "rigspine".data

def kwRigChest : List Char := "rigchest".data

def kwRigTail : List Char := "rigtail".data

def kwRigLBLeg : List Char := "riglbleg".data

def kwRigRBLeg : List Char := "rigrbleg".data

def kwRigLFLeg : List Char := "riglfleg".data

def kwRigLFLegCollar : List Char := "riglflegcollarbone".data

def kwRigRFLeg : List Char := "rigrfleg".data

def kwRigRFLegCollar : List Char := "rigrflegcollarbone".data

def kwRigLBLegAnkle : List Char := "riglblegankle".data

def kwRigRBLegAnkle : List Char := "rigrblegankle".data

def kwRigLFLegAnkle : List Char := "riglflegankle".data

def kwRigRFLegAnkle : List Char := "rigrflegankle".data

/-- `REGION_KEYWORDS` / `region_keywords`. -/
def regionKeywords : Region → List (List Char)
  | .head => [kwRigHead, kwRigJaw, kwRigTongue, kwRigEyelid, kwRigEar]
  | .neck => [kwRigNeck]
  | .spine => [kwRigRoot, kwRigPelvis, kwRigSpine, kwRigChest]
  | .tail => [kwRigTail]
  | .back_leg_L => [kwRigLBLeg]
  | .back_leg_R => [kwRigRBLeg]
  | .front_leg_L => [kwRigLFLeg, kwRigLFLegCollar]
  | .front_leg_R => [kwRigRFLeg, kwRigRFLegCollar]
  | .ankle_BL => [kwRigLBLegAnkle]
  | .ankle_BR => [kwRigRBLegAnkle]
  | .ankle_FL => [kwRigLFLegAnkle]
  | .ankle_FR => [kwRigRFLegAnkle]

/-- The fixed priority order (ankles > head > neck > tail > legs > spine). -/
def priorityList : List Region :=
  [Region.ankle_BL, Region.ankle_BR, Region.ankle_FL, Region.ankle_FR,
   Region.head, Region.neck, Region.tail,
   Region.back_leg_L, Region.back_leg_R, Region.front_leg_L,
   Region.front_leg_R, Region.spine]

/-- `any(keyword in normalized_name for keyword in keywords)`. -/
def kwMatches (rg : Region) (nm : List Char) : Bool :=
  (regionKeywords rg).any (fun kw => hasSub kw nm)

/-- The classification loop body of `classify_bones` / `_classify_bones`:
starting from the default `'spine'`, walk the priority list; on a keyword
match set `assigned` and break out of the inner loop; break out of the outer
loop once `assigned != 'spine'`. -/
def classifyLoop (nm : List Char) : List Region → Region
  | [] => Region.spine
  | rg :: rest =>
    let assigned := if kwMatches rg nm then rg else Region.spine
    if assigned ≠ Region.spine then assigned else classifyLoop nm rest

/-- Spec-side reading of the classification contract: the first region of the
priority list one of whose keywords occurs in the normalized name, `'spine'`
when nothing matches. -/
def classifySpec (nm : List Char) : Region :=
  (priorityList.find? (fun rg => kwMatches rg nm)).getD Region.spine

theorem classifyLoop_step (nm : List Char) (rg : Region) (rest : List Region)
    (h : rg ≠ Region.spine) :
    classifyLoop nm (rg :: rest) =
      if kwMatches rg nm then rg else classifyLoop nm rest := by
  by_cases hm : kwMatches rg nm
  · simp [classifyLoop, hm, h]
  · simp [classifyLoop, hm]

theorem classifyLoop_eq_classifySpec (nm : List Char) :
    classifyLoop nm priorityList = classifySpec nm := by
  have key : ∀ rs : List Region, (∀ r ∈ rs, r ≠ Region.spine) →
      classifyLoop nm (rs ++ [Region.spine]) =
        ((rs ++ [Region.spine]).find? (fun rg => kwMatches rg nm)).getD
          Region.spine := by
    intro rs hrs
    induction rs with
    | nil =>
      by_cases hm : kwMatches Region.spine nm
      · simp [classifyLoop, List.find?, hm]
      · simp [classifyLoop, List.find?, hm]
    | cons r rs ih =>
      have hr : r ≠ Region.spine := hrs r (List.mem_cons_self r rs)
      have hrs2 : ∀ a ∈ rs, a ≠ Region.spine := fun a ha =>
        hrs a (List.mem_cons_of_mem r ha)
      rw [List.cons_append, classifyLoop_step nm r _ hr]
      by_cases hm : kwMatches r nm
      · simp [List.find?, hm]
      · simp only [List.find?, hm, Bool.false_eq_true, not_false_eq_true,
          ite_false]
        simpa [hm] using ih hrs2
  have hsplit : priorityList =
      [Region.ankle_BL, Region.ankle_BR, Region.ankle_FL, Region.ankle_FR,
       Region.head, Region.neck, Region.tail,
       Region.back_leg_L, Region.back_leg_R, Region.front_leg_L,
       Region.front_leg_R] ++ [Region.spine] := rfl
  rw [classifySpec, hsplit]
  exact key _ (by decide)

/-!
Skeleton model, embedding `core/skeleton.py`.

Python `Joint` objects are mutable records linked by references; the
embedding is an immutable `SkelState` whose joint list is indexed by list
position, with parent references resolved to positions.  The recursive
tree traversals `_compute_bind_matrices` and `update_global_transforms`
(root-first recursion over the `children` lists) are embedded as a
fuel-bounded walk up the parent chain: a joint is visited by the Python
recursion exactly when its chain of resolved parents reaches the root, and
the value computed for it depends only on that chain; on the skeleton side,
every chain that reaches the root is repetition-free, so fuel
`joints.length + 1` never runs out where the Python recursion terminates.
-/

/-- Serialized joint record (name, stable index, head/tail position,
optional parent name) as consumed by `Skeleton.add_joint`. -/
structure JointSpec where
  name : List Char
  idx : ℕ
  head : V3
  tail : V3
  parentName : Option (List Char)

/-- State of one `Joint` object: the spec fields plus the resolved parent
reference and the mutable transform fields, with their `Joint.__init__`
values (identity matrices, `current_position = head`). -/
structure JointState where
  name : List Char
  idx : ℕ
  head : V3
  tail : V3
  parentName : Option (List Char)
  parentIdx : Option ℕ
  localT : M4
  globalT : M4
  bindM : M4
  invBindM : M4
  curPos : V3

/-- Python truthiness of `joint.parent_name` (`None` and `""` are falsy). -/
def truthyParent : Option (List Char) → Bool
  | none => false
  | some nm => !nm.isEmpty

/-- `joint_map[name]` lookup: `add_joint` overwrites on duplicate names, so
the *last* joint with the given name wins. -/
def lastNameIdx (nm : List Char) : List JointSpec → Option ℕ
  | [] => none
  | j :: rest =>
    match lastNameIdx nm rest with
    | some k => some (k + 1)
    | none => if j.name = nm then some 0 else none

/-- `build_hierarchy`'s root selection: the first joint whose `parent_name`
is falsy becomes `root_joint` (later parentless joints are ignored because
`root_joint` is only assigned while it is still `None`). -/
def firstRootIdx : List JointSpec → Option ℕ
  | [] => none
  | j :: rest =>
    if truthyParent j.parentName then (firstRootIdx rest).map (· + 1)
    else some 0

/-- `build_hierarchy`'s parent linking: a truthy parent name is looked up in
`joint_map`; an unresolved name leaves `joint.parent` as `None` (no error is
raised). -/
def resolveParent (js : List JointSpec) (j : JointSpec) : Option ℕ :=
  match j.parentName with
  | none => none
  | some nm => if nm.isEmpty then none else lastNameIdx nm js

def defSpec : JointSpec :=
  { name := [], idx := 0, head := 0, tail := 0, parentName := none }

def specAt (js : List JointSpec) (k : ℕ) : JointSpec := js.getD k defSpec

/-- `Joint.__init__` followed by `build_hierarchy`'s linking pass. -/
def initJoint (js : List JointSpec) (j : JointSpec) : JointState :=
  { name := j.name, idx := j.idx, head := j.head, tail := j.tail,
    parentName := j.parentName, parentIdx := resolveParent js j,
    localT := 1, globalT := 1, bindM := 1, invBindM := 1, curPos := j.head }

structure SkelState where
  joints : List JointState
  rootIdx : Option ℕ

def defJS : JointState :=
  { name := [], idx := 0, head := 0, tail := 0, parentName := none,
    parentIdx := none, localT := 1, globalT := 1, bindM := 1, invBindM := 1,
    curPos := 0 }

def jsAt (s : SkelState) (k : ℕ) : JointState := s.joints.getD k defJS

def parOf (s : SkelState) (k : ℕ) : Option ℕ := (jsAt s k).parentIdx

def headOf (s : SkelState) (k : ℕ) : V3 := (jsAt s k).head

/-- The linking pass of `build_hierarchy` (parent resolution and root
selection). -/
def linkJoints (js : List JointSpec) : SkelState :=
  { joints := (List.range js.length).map (fun k => initJoint js (specAt js k)),
    rootIdx := firstRootIdx js }

/-- Fuel-bounded walk up the resolved-parent chain, accumulating a matrix
from the root down; common skeleton of `_compute_bind_matrices` and
`update_global_transforms` (see the section comment). -/
def chainT (par : ℕ → Option ℕ) (root : ℕ) (rootVal : M4)
    (step : ℕ → ℕ → M4 → M4) : ℕ → ℕ → Option M4
  | 0, _ => none
  | fuel + 1, k =>
    if k = root then some rootVal
    else
      match par k with
      | none => none
      | some p => (chainT par root rootVal step fuel p).map (step k p)

/-- Whether the resolved-parent chain from `k` reaches the root within the
given fuel, i.e. whether the Python root-first recursion visits joint `k`. -/
def reachesRoot (par : ℕ → Option ℕ) (root : ℕ) : ℕ → ℕ → Bool
  | 0, _ => false
  | fuel + 1, k =>
    if k = root then true
    else
      match par k with
      | none => false
      | some p => reachesRoot par root fuel p

theorem chainT_isSome (par : ℕ → Option ℕ) (root : ℕ) (rootVal : M4)
    (step : ℕ → ℕ → M4 → M4) :
    ∀ fuel k, (chainT par root rootVal step fuel k).isSome =
      reachesRoot par root fuel k := by
  intro fuel
  induction fuel with
  | zero => intro k; rfl
  | succ fuel ih =>
    intro k
    by_cases hk : k = root
    · simp [chainT, reachesRoot, hk]
    · cases hp : par k with
      | none => simp [chainT, reachesRoot, hk, hp]
      | some p => simp [chainT, reachesRoot, hk, hp, ih p]

/-- `_compute_bind_matrices`: `bind[root] = T(root.head)`,
`bind[j] = bind[parent j] * T(head j - head (parent j))`. -/
def bindChain (s : SkelState) (root : ℕ) : ℕ → ℕ → Option M4 :=
  chainT (parOf s) root (transM (headOf s root))
    (fun k p m => m * transM (headOf s k - headOf s p))

/-- The `_compute_bind_matrices` pass: joints visited by the recursion get
new `bind_matrix` and `inverse_bind_matrix`; unvisited joints keep their
constructor values.  With `root_joint` `None` the function returns at once. -/
def computeBindMatrices (s : SkelState) : SkelState :=
  match s.rootIdx with
  | none => s
  | some r =>
    { s with joints := (List.range s.joints.length).map (fun k =>
        match bindChain s r (s.joints.length + 1) k with
        | some bm => { jsAt s k with bindM := bm, invBindM := m4inv bm }
        | none => jsAt s k) }

/-- `_init_transforms`: `global_transform` becomes a copy of `bind_matrix`,
`current_position` is reset to the bind head, for every joint. -/
def initTransforms (s : SkelState) : SkelState :=
  { s with joints := (List.range s.joints.length).map (fun k =>
      { jsAt s k with globalT := (jsAt s k).bindM,
                      curPos := (jsAt s k).head }) }

/-- `Skeleton.build_hierarchy` (linking, bind matrices, transform init). -/
def buildHierarchyS (js : List JointSpec) : SkelState :=
  initTransforms (computeBindMatrices (linkJoints js))

/-- The structural-error vocabulary of the specification (duplicate root,
unresolved parent name). -/
inductive SkelError where
  | duplicateRoot
  | unresolvedParent
deriving DecidableEq, Repr

/-- `Skeleton.build_hierarchy` with an explicit error channel.  The body of
the Python method contains no `raise` and no error return on any path, so
the embedding always produces `Except.ok`; the `Except` codomain records the
error channel that the specification's fatal structural errors would use. -/
def buildHierarchyE (js : List JointSpec) : Except SkelError SkelState :=
  Except.ok (buildHierarchyS js)

/-- `update_global_transforms`:
`global[root] = T(root.head) * local[root]`,
`global[j] = global[parent j] * T(head j - head (parent j)) * local[j]`. -/
def globalChain (s : SkelState) (root : ℕ) : ℕ → ℕ → Option M4 :=
  chainT (parOf s) root (transM (headOf s root) * (jsAt s root).localT)
    (fun k p m => m * transM (headOf s k - headOf s p) * (jsAt s k).localT)

/-- The `update_global_transforms` pass: visited joints get the recomputed
global transform and the position extracted from its translation column;
unvisited joints are untouched.  With `root_joint` `None` it returns at
once. -/
def updateGlobals (s : SkelState) : SkelState :=
  match s.rootIdx with
  | none => s
  | some r =>
    { s with joints := (List.range s.joints.length).map (fun k =>
        match globalChain s r (s.joints.length + 1) k with
        | some g =>
          { jsAt s k with globalT := g, curPos := ⟨g 0 3, g 1 3, g 2 3⟩ }
        | none => jsAt s k) }

/-- The external pose input: each joint's `local_transform` is set by the
animation layer (modelled positionally). -/
def setLocals (L : ℕ → M4) (s : SkelState) : SkelState :=
  { s with joints := (List.range s.joints.length).map (fun k =>
      { jsAt s k with localT := L k }) }

/-- A `Bone` as used by the weight calculator and deformer: the fields of
the referenced start/end `Joint` objects that are never mutated after
construction (names, bind heads, stable index), so the reference semantics
of the Python objects and this snapshot agree. -/
structure Bone where
  sName : List Char
  eName : List Char
  sHead : V3
  eHead : V3
  eIdx : ℕ

def defBone : Bone := { sName := [], eName := [], sHead := 0, eHead := 0, eIdx := 0 }

def mkBone (ps je : JointState) : Bone :=
  { sName := ps.name, eName := je.name, sHead := ps.head, eHead := je.head,
    eIdx := je.idx }

/-- `Skeleton.build_bones`: one bone per joint with a resolved parent, in
joint order, indexed by position in the resulting list. -/
def bonesOf (s : SkelState) : List Bone :=
  (List.range s.joints.length).filterMap (fun k =>
    (parOf s k).map (fun p => mkBone (jsAt s p) (jsAt s k)))

/-- `Bone.name = f"{start.name}_to_{end.name}"`. -/
def toSep : List Char := "_to_".data

def boneName (b : Bone) : List Char := b.sName ++ toSep ++ b.eName

/-- `_classify_bones` / `classify_bones` over a skeleton's bone list
(region of bone `i` at position `i`). -/
def classifyAll (bones : List Bone) : List Region :=
  bones.map (fun b => classifyLoop (normName (boneName b)) priorityList)

theorem getD_map_range {α : Type _} (n : ℕ) (g : ℕ → α) (d : α) (k : ℕ) :
    ((List.range n).map g).getD k d = if k < n then g k else d := by
  by_cases h : k < n
  · rw [List.getD_eq_getElem?_getD, List.getElem?_map, List.getElem?_range h]
    simp [h]
  · have hk : ((List.range n).map g).length ≤ k := by
      simpa using Nat.le_of_not_lt h
    rw [List.getD_eq_getElem?_getD, List.getElem?_eq_none hk]
    simp [h]

theorem jsAt_ge (s : SkelState) (k : ℕ) (h : s.joints.length ≤ k) :
    jsAt s k = defJS := by
  rw [jsAt, List.getD_eq_getElem?_getD, List.getElem?_eq_none h]
  rfl

theorem jsAt_linkJoints (js : List JointSpec) (k : ℕ) :
    jsAt (linkJoints js) k =
      if k < js.length then initJoint js (specAt js k) else defJS :=
  getD_map_range _ _ _ _

theorem length_linkJoints (js : List JointSpec) :
    (linkJoints js).joints.length = js.length := by
  simp [linkJoints]

theorem rootIdx_cbm (s : SkelState) :
    (computeBindMatrices s).rootIdx = s.rootIdx := by
  cases h : s.rootIdx <;> simp [computeBindMatrices, h]

theorem rootIdx_initT (s : SkelState) :
    (initTransforms s).rootIdx = s.rootIdx := rfl

theorem rootIdx_setLocals (L : ℕ → M4) (s : SkelState) :
    (setLocals L s).rootIdx = s.rootIdx := rfl

theorem rootIdx_updateG (s : SkelState) :
    (updateGlobals s).rootIdx = s.rootIdx := by
  cases h : s.rootIdx <;> simp [updateGlobals, h]

theorem length_cbm (s : SkelState) :
    (computeBindMatrices s).joints.length = s.joints.length := by
  cases h : s.rootIdx <;> simp [computeBindMatrices, h]

theorem length_initT (s : SkelState) :
    (initTransforms s).joints.length = s.joints.length := by
  simp [initTransforms]

theorem length_setLocals (L : ℕ → M4) (s : SkelState) :
    (setLocals L s).joints.length = s.joints.length := by
  simp [setLocals]

theorem length_updateG (s : SkelState) :
    (updateGlobals s).joints.length = s.joints.length := by
  cases h : s.rootIdx <;> simp [updateGlobals, h]

theorem jsAt_cbm (s : SkelState) (r : ℕ) (h : s.rootIdx = some r) (k : ℕ) :
    jsAt (computeBindMatrices s) k =
      if k < s.joints.length then
        (match bindChain s r (s.joints.length + 1) k with
         | some bm => { jsAt s k with bindM := bm, invBindM := m4inv bm }
         | none => jsAt s k)
      else defJS := by
  simp only [computeBindMatrices, h]
  exact getD_map_range _ _ _ _

theorem jsAt_initT (s : SkelState) (k : ℕ) :
    jsAt (initTransforms s) k =
      if k < s.joints.length then
        { jsAt s k with globalT := (jsAt s k).bindM, curPos := (jsAt s k).head }
      else defJS :=
  getD_map_range _ _ _ _

theorem jsAt_setLocals (L : ℕ → M4) (s : SkelState) (k : ℕ) :
    jsAt (setLocals L s) k =
      if k < s.joints.length then { jsAt s k with localT := L k } else defJS :=
  getD_map_range _ _ _ _

theorem jsAt_updateG (s : SkelState) (r : ℕ) (h : s.rootIdx = some r) (k : ℕ) :
    jsAt (updateGlobals s) k =
      if k < s.joints.length then
        (match globalChain s r (s.joints.length + 1) k with
         | some g =>
           { jsAt s k with globalT := g, curPos := ⟨g 0 3, g 1 3, g 2 3⟩ }
         | none => jsAt s k)
      else defJS := by
  simp only [updateGlobals, h]
  exact getD_map_range _ _ _ _

theorem cbm_rootless (s : SkelState) (h : s.rootIdx = none) :
    computeBindMatrices s = s := by
  simp [computeBindMatrices, h]

theorem updateG_rootless (s : SkelState) (h : s.rootIdx = none) :
    updateGlobals s = s := by
  simp [updateGlobals, h]

theorem jsAt_cbm_fields (s : SkelState) (k : ℕ) :
    (jsAt (computeBindMatrices s) k).parentIdx = (jsAt s k).parentIdx ∧
    (jsAt (computeBindMatrices s) k).head = (jsAt s k).head ∧
    (jsAt (computeBindMatrices s) k).name = (jsAt s k).name ∧
    (jsAt (computeBindMatrices s) k).idx = (jsAt s k).idx ∧
    (jsAt (computeBindMatrices s) k).localT = (jsAt s k).localT := by
  cases h : s.rootIdx with
  | none => rw [cbm_rootless s h]; exact ⟨rfl, rfl, rfl, rfl, rfl⟩
  | some r =>
    rw [jsAt_cbm s r h k]
    by_cases hk : k < s.joints.length
    · rw [if_pos hk]
      cases bindChain s r (s.joints.length + 1) k <;>
        exact ⟨rfl, rfl, rfl, rfl, rfl⟩
    · rw [if_neg hk, jsAt_ge s k (Nat.le_of_not_lt hk)]
      exact ⟨rfl, rfl, rfl, rfl, rfl⟩

theorem jsAt_initT_fields (s : SkelState) (k : ℕ) :
    (jsAt (initTransforms s) k).parentIdx = (jsAt s k).parentIdx ∧
    (jsAt (initTransforms s) k).head = (jsAt s k).head ∧
    (jsAt (initTransforms s) k).name = (jsAt s k).name ∧
    (jsAt (initTransforms s) k).idx = (jsAt s k).idx ∧
    (jsAt (initTransforms s) k).localT = (jsAt s k).localT ∧
    (jsAt (initTransforms s) k).bindM = (jsAt s k).bindM := by
  rw [jsAt_initT s k]
  by_cases hk : k < s.joints.length
  · rw [if_pos hk]; exact ⟨rfl, rfl, rfl, rfl, rfl, rfl⟩
  · rw [if_neg hk, jsAt_ge s k (Nat.le_of_not_lt hk)]
    exact ⟨rfl, rfl, rfl, rfl, rfl, rfl⟩

theorem jsAt_setLocals_fields (L : ℕ → M4) (s : SkelState) (k : ℕ) :
    (jsAt (setLocals L s) k).parentIdx = (jsAt s k).parentIdx ∧
    (jsAt (setLocals L s) k).head = (jsAt s k).head ∧
    (jsAt (setLocals L s) k).name = (jsAt s k).name ∧
    (jsAt (setLocals L s) k).idx = (jsAt s k).idx ∧
    (jsAt (setLocals L s) k).bindM = (jsAt s k).bindM ∧
    (jsAt (setLocals L s) k).globalT = (jsAt s k).globalT := by
  rw [jsAt_setLocals L s k]
  by_cases hk : k < s.joints.length
  · rw [if_pos hk]; exact ⟨rfl, rfl, rfl, rfl, rfl, rfl⟩
  · rw [if_neg hk, jsAt_ge s k (Nat.le_of_not_lt hk)]
    exact ⟨rfl, rfl, rfl, rfl, rfl, rfl⟩

theorem jsAt_updateG_fields (s : SkelState) (k : ℕ) :
    (jsAt (updateGlobals s) k).parentIdx = (jsAt s k).parentIdx ∧
    (jsAt (updateGlobals s) k).head = (jsAt s k).head ∧
    (jsAt (updateGlobals s) k).name = (jsAt s k).name ∧
    (jsAt (updateGlobals s) k).idx = (jsAt s k).idx ∧
    (jsAt (updateGlobals s) k).localT = (jsAt s k).localT ∧
    (jsAt (updateGlobals s) k).bindM = (jsAt s k).bindM := by
  cases h : s.rootIdx with
  | none => rw [updateG_rootless s h]; exact ⟨rfl, rfl, rfl, rfl, rfl, rfl⟩
  | some r =>
    rw [jsAt_updateG s r h k]
    by_cases hk : k < s.joints.length
    · rw [if_pos hk]
      cases globalChain s r (s.joints.length + 1) k <;>
        exact ⟨rfl, rfl, rfl, rfl, rfl, rfl⟩
    · rw [if_neg hk, jsAt_ge s k (Nat.le_of_not_lt hk)]
      exact ⟨rfl, rfl, rfl, rfl, rfl, rfl⟩

theorem filterMap_congr_list {α β : Type _} (l : List α) (f g : α → Option β)
    (h : ∀ a ∈ l, f a = g a) : l.filterMap f = l.filterMap g := by
  induction l with
  | nil => rfl
  | cons a l ih =>
    rw [List.filterMap_cons, List.filterMap_cons,
      h a (List.mem_cons_self a l), ih (fun b hb => h b (List.mem_cons_of_mem a hb))]

theorem bonesOf_congr (t s : SkelState)
    (hlen : t.joints.length = s.joints.length)
    (hpar : ∀ k, (jsAt t k).parentIdx = (jsAt s k).parentIdx)
    (hhead : ∀ k, (jsAt t k).head = (jsAt s k).head)
    (hname : ∀ k, (jsAt t k).name = (jsAt s k).name)
    (hidx : ∀ k, (jsAt t k).idx = (jsAt s k).idx) :
    bonesOf t = bonesOf s := by
  unfold bonesOf
  rw [hlen]
  apply filterMap_congr_list
  intro k _
  rw [parOf, parOf, hpar k]
  cases hp : (jsAt s k).parentIdx with
  | none => rfl
  | some p =>
    simp only [Option.map_some']
    unfold mkBone
    rw [hname k, hidx k, hhead k, hname p, hhead p]

theorem bonesOf_buildSteps (js : List JointSpec) (L : ℕ → M4) :
    bonesOf (updateGlobals (setLocals L (buildHierarchyS js))) =
      bonesOf (linkJoints js) ∧
    bonesOf (buildHierarchyS js) = bonesOf (linkJoints js) := by
  have h1 : bonesOf (computeBindMatrices (linkJoints js)) = bonesOf (linkJoints js) :=
    bonesOf_congr _ _ (length_cbm _)
      (fun k => (jsAt_cbm_fields _ k).1)
      (fun k => (jsAt_cbm_fields _ k).2.1)
      (fun k => (jsAt_cbm_fields _ k).2.2.1)
      (fun k => (jsAt_cbm_fields _ k).2.2.2.1)
  have h2 : bonesOf (buildHierarchyS js) = bonesOf (linkJoints js) := by
    rw [buildHierarchyS]
    rw [bonesOf_congr _ _ (length_initT _)
      (fun k => (jsAt_initT_fields _ k).1)
      (fun k => (jsAt_initT_fields _ k).2.1)
      (fun k => (jsAt_initT_fields _ k).2.2.1)
      (fun k => (jsAt_initT_fields _ k).2.2.2.1)]
    exact h1
  refine ⟨?_, h2⟩
  rw [bonesOf_congr _ _ (length_updateG _)
    (fun k => (jsAt_updateG_fields _ k).1)
    (fun k => (jsAt_updateG_fields _ k).2.1)
    (fun k => (jsAt_updateG_fields _ k).2.2.1)
    (fun k => (jsAt_updateG_fields _ k).2.2.2.1)]
  rw [bonesOf_congr _ _ (length_setLocals _ _)
    (fun k => (jsAt_setLocals_fields L _ k).1)
    (fun k => (jsAt_setLocals_fields L _ k).2.1)
    (fun k => (jsAt_setLocals_fields L _ k).2.2.1)
    (fun k => (jsAt_setLocals_fields L _ k).2.2.2.1)]
  exact h2

theorem specAt_cons_succ (j : JointSpec) (js : List JointSpec) (k : ℕ) :
    specAt (j :: js) (k + 1) = specAt js k := rfl

theorem firstRootIdx_spec (js : List JointSpec) :
    ∀ r, firstRootIdx js = some r →
      r < js.length ∧ truthyParent (specAt js r).parentName = false ∧
      ∀ k, k < r → truthyParent (specAt js k).parentName = true := by
  induction js with
  | nil => intro r h; exact absurd h (by simp [firstRootIdx])
  | cons j rest ih =>
    intro r h
    by_cases hj : truthyParent j.parentName
    · rw [firstRootIdx, if_pos hj] at h
      cases hrec : firstRootIdx rest with
      | none => rw [hrec] at h; exact absurd h (by simp)
      | some r' =>
        rw [hrec] at h
        simp only [Option.map_some'] at h
        obtain ⟨hlt, hfalse, hbefore⟩ := ih r' hrec
        have hr : r = r' + 1 := (Option.some_injective _ h).symm
        subst hr
        refine ⟨by simpa using Nat.succ_lt_succ hlt, ?_, ?_⟩
        · rw [specAt_cons_succ]; exact hfalse
        · intro k hk
          cases k with
          | zero => simpa using hj
          | succ k' =>
            rw [specAt_cons_succ]
            exact hbefore k' (Nat.lt_of_succ_lt_succ hk)
    · rw [firstRootIdx, if_neg hj] at h
      have hr : r = 0 := (Option.some_injective _ h).symm
      subst hr
      refine ⟨Nat.succ_pos _, ?_, fun k hk => absurd hk (Nat.not_lt_zero k)⟩
      simpa using hj

theorem firstRootIdx_none (js : List JointSpec)
    (h : ∀ j ∈ js, truthyParent j.parentName = true) :
    firstRootIdx js = none := by
  induction js with
  | nil => rfl
  | cons j rest ih =>
    rw [firstRootIdx, if_pos (h j (List.mem_cons_self j rest))]
    rw [ih (fun a ha => h a (List.mem_cons_of_mem j ha))]
    rfl

theorem lastNameIdx_none (nm : List Char) (js : List JointSpec)
    (h : ∀ j ∈ js, j.name ≠ nm) : lastNameIdx nm js = none := by
  induction js with
  | nil => rfl
  | cons j rest ih =>
    rw [lastNameIdx, ih (fun a ha => h a (List.mem_cons_of_mem j ha))]
    simp [h j (List.mem_cons_self j rest)]

theorem rootIdx_buildS (js : List JointSpec) :
    (buildHierarchyS js).rootIdx = firstRootIdx js := by
  rw [buildHierarchyS, rootIdx_initT, rootIdx_cbm]
  rfl

theorem parOf_buildS (js : List JointSpec) (k : ℕ) (hk : k < js.length) :
    parOf (buildHierarchyS js) k = resolveParent js (specAt js k) := by
  rw [parOf, buildHierarchyS, (jsAt_initT_fields _ k).1, (jsAt_cbm_fields _ k).1,
    jsAt_linkJoints js k, if_pos hk]
  rfl

/-- A parentless joint in Python (`parent_name` falsy). -/
def countParentless (js : List JointSpec) : ℕ :=
  (js.filter (fun j => !truthyParent j.parentName)).length

def exceptOk {ε α : Type _} : Except ε α → Bool
  | Except.ok _ => true
  | Except.error _ => false

def nmA : List Char := "a".data

def nmB : List Char := "b".data

def nmNope : List Char := "nope".data

/-- Two parentless joints: `skeleton with a duplicate root`. -/
def cexC1 : List JointSpec :=
  [{ name := nmA, idx := 0, head := 0, tail := 0, parentName := none },
   { name := nmB, idx := 1, head := ⟨1, 0, 0⟩, tail := 0, parentName := none }]

/-- A joint whose parent name matches no joint. -/
def cexC1b : List JointSpec :=
  [{ name := nmA, idx := 0, head := 0, tail := 0, parentName := none },
   { name := nmB, idx := 1, head := ⟨1, 0, 0⟩, tail := 0,
     parentName := some nmNope }]

/-- C1 counterexample: on a joint list with two parentless joints
`build_hierarchy` completes without reporting any error (the first parentless
joint silently becomes the root), and it also completes on a joint list whose
second joint references the unknown parent name `"nope"`; the claimed fatal
structural error is never raised. -/
theorem c1_counterexample :
    1 < countParentless cexC1 ∧
    exceptOk (buildHierarchyE cexC1) = true ∧
    (buildHierarchyS cexC1).rootIdx = some 0 ∧
    (specAt cexC1b 1).parentName = some nmNope ∧
    (∀ j ∈ cexC1b, j.name ≠ nmNope) ∧
    exceptOk (buildHierarchyE cexC1b) = true := by
  refine ⟨by decide, rfl, ?_, by decide, by decide, rfl⟩
  rw [rootIdx_buildS]
  decide

/-- C1 amended: `build_hierarchy` never reports an error.  The first joint
with a falsy parent name becomes the root (a second parentless joint is
silently ignored), and a joint whose parent name matches no joint's name is
silently left unlinked rather than causing a failure. -/
theorem c1_build_hierarchy_never_fails (js : List JointSpec) :
    exceptOk (buildHierarchyE js) = true ∧
    (∀ r, (buildHierarchyS js).rootIdx = some r →
      r < js.length ∧ truthyParent (specAt js r).parentName = false ∧
      ∀ k, k < r → truthyParent (specAt js k).parentName = true) ∧
    (∀ k nm, k < js.length → (specAt js k).parentName = some nm →
      (∀ j ∈ js, j.name ≠ nm) → parOf (buildHierarchyS js) k = none) := by
  refine ⟨rfl, ?_, ?_⟩
  · intro r hr
    rw [rootIdx_buildS] at hr
    exact firstRootIdx_spec js r hr
  · intro k nm hk hpn hnone
    rw [parOf_buildS js k hk, resolveParent, hpn]
    by_cases he : nm.isEmpty
    · simp [he]
    · simp [he, lastNameIdx_none nm js hnone]

/-- C1 amended-claim witness at the concrete unknown-parent skeleton. -/
theorem c1_build_hierarchy_never_fails_witness :
    parOf (buildHierarchyS cexC1b) 1 = none ∧
    exceptOk (buildHierarchyE cexC1b) = true :=
  ⟨(c1_build_hierarchy_never_fails cexC1b).2.2 1 nmNope (by decide) (by decide)
    (by decide),
   (c1_build_hierarchy_never_fails cexC1b).1⟩

/-- C10: with no root joint (empty joint list, or every joint naming some
parent), both the bind-matrix pass invoked by `build_hierarchy` and
`update_global_transforms` return at once, leaving the whole skeleton state
(in particular every joint's bind matrix, inverse bind matrix, global
transform and current position) unchanged. -/
theorem c10_rootless_passes_noop (js : List JointSpec)
    (h : js = [] ∨ ∀ j ∈ js, truthyParent j.parentName = true) :
    computeBindMatrices (linkJoints js) = linkJoints js ∧
    updateGlobals (buildHierarchyS js) = buildHierarchyS js := by
  have hroot : firstRootIdx js = none := by
    cases h with
    | inl he => rw [he]; rfl
    | inr ha => exact firstRootIdx_none js ha
  constructor
  · exact cbm_rootless _ hroot
  · apply updateG_rootless
    rw [rootIdx_buildS]
    exact hroot

def cexC10 : List JointSpec :=
  [{ name := nmA, idx := 0, head := ⟨1, 2, 3⟩, tail := 0,
     parentName := some nmB },
   { name := nmB, idx := 1, head := ⟨4, 5, 6⟩, tail := 0,
     parentName := some nmA }]

/-- C10 witness: a two-joint cycle (every joint names a parent, no root). -/
theorem c10_rootless_passes_noop_witness :
    computeBindMatrices (linkJoints cexC10) = linkJoints cexC10 ∧
    updateGlobals (buildHierarchyS cexC10) = buildHierarchyS cexC10 :=
  c10_rootless_passes_noop cexC10 (Or.inr (by decide))

/-- C7: region classification assigns every bone of the skeleton the first
region, in priority order ankles > head > neck > tail > legs > spine, one of
whose keywords occurs as a substring of the bone's normalized (lowercased,
separator-stripped) name, and assigns `'spine'` to a bone whose normalized
name matches no keyword of any region. -/
theorem c7_classify_first_priority_match (s : SkelState) :
    classifyAll (bonesOf s) =
      (bonesOf s).map (fun b => classifySpec (normName (boneName b))) ∧
    ∀ nm : List Char, (∀ rg ∈ priorityList, kwMatches rg nm = false) →
      classifyLoop nm priorityList = Region.spine := by
  constructor
  · unfold classifyAll
    simp only [classifyLoop_eq_classifySpec]
  · intro nm h
    rw [classifyLoop_eq_classifySpec, classifySpec, List.find?_eq_none.mpr]
    · rfl
    · intro rg hrg
      simp [h rg hrg]

def nmXyz : List Char := "xyz".data

/-- C7 witness: the no-keyword clause at a concrete name. -/
theorem c7_classify_first_priority_match_witness :
    classifyLoop nmXyz priorityList = Region.spine :=
  (c7_classify_first_priority_match ⟨[], none⟩).2 nmXyz (by decide)

theorem V3.sub_self (a : V3) : a - a = 0 := by
  cases a
  show V3.mk _ _ _ = _
  simp [V3.sub_def]
  rfl

theorem V3.add_sub_cancel2 (a b : V3) : a + (b - a) = b := by
  cases a; cases b
  show V3.mk _ _ _ = _
  simp [V3.sub_def, V3.add_def]

theorem V3.sub_add_sub (a b c : V3) : (a - c) + (b - a) = b - c := by
  cases a; cases b; cases c
  show V3.mk _ _ _ = _
  simp only [V3.sub_def, V3.add_def, V3.mk.injEq]
  refine ⟨by ring, by ring, by ring⟩

theorem V3.sub_add_neg (a b : V3) : (a - b) + -a = -b := by
  cases a; cases b
  show V3.mk _ _ _ = _
  simp only [V3.sub_def, V3.add_def, V3.neg_def, V3.mk.injEq]
  refine ⟨by ring, by ring, by ring⟩

theorem V3.add_neg_eq_sub (a b : V3) : a + -b = a - b := by
  cases a; cases b
  show V3.mk _ _ _ = _
  simp only [V3.neg_def, V3.add_def, V3.sub_def, V3.mk.injEq]
  refine ⟨by ring, by ring, by ring⟩

/-!
Skin deformer, embedding `skinning/deformer.py` (`SkinDeformer`).

The constructor converts the mesh vertices to an array and computes
`bind_inverse[i] = inv(joints[i].bind_matrix)` (identity on a singular
matrix); `update()` computes, per bone, the skinning matrix
`G_current[joint_idx] @ bind_inverse[joint_idx]` with
`joint_idx = bone.end_joint.index`, accumulates
`w[:, b] * (V_homogeneous @ T.T)` over the bone list, and keeps the first
three components.  Both per-joint arrays are indexed by *position* in the
joint list while `joint_idx` is the joint's `.index` attribute; theorems
that need the two to agree carry the hypothesis that each joint's stable
index equals its list position.
-/

/-- `bind_inverse[j]` of `_compute_bind_inverse`. -/
def binvAt (s : SkelState) (j : ℕ) : M4 := m4inv (jsAt s j).bindM

/-- `G_current[j]` of `_get_current_global_matrices`. -/
def gAt (s : SkelState) (j : ℕ) : M4 := (jsAt s j).globalT

/-- Skinning matrix of a bone: `G_current[joint_idx] @ bind_inverse[joint_idx]`
with `joint_idx = bone.end_joint.index`. -/
def skinMat (s : SkelState) (b : Bone) : M4 := gAt s b.eIdx * binvAt s b.eIdx

/-- One vertex of `SkinDeformer.update`: the accumulated
`Σ_b w[b] * (T_b @ [v,1])`, with the W component dropped after summation. -/
def lbsVertex (s : SkelState) (w : ℕ → ℚ) (v : V3) : V3 :=
  dropW (∑ bi in Finset.range (bonesOf s).length,
    w bi • (skinMat s ((bonesOf s).getD bi defBone)).mulVec (homo v))

/-- `SkinDeformer.update`: the deformed vertex buffer as a function of the
current skeleton state, the weight matrix (row i = weights of vertex i) and
the bind-pose vertices. -/
def deformedVerts (s : SkelState) (w : ℕ → ℕ → ℚ) (mesh : List V3) : List V3 :=
  (List.range mesh.length).map (fun i => lbsVertex s (w i) (mesh.getD i 0))

theorem deformedVerts_getD (s : SkelState) (w : ℕ → ℕ → ℚ) (mesh : List V3)
    (i : ℕ) (hi : i < mesh.length) :
    (deformedVerts s w mesh).getD i 0 = lbsVertex s (w i) (mesh.getD i 0) := by
  rw [deformedVerts, getD_map_range, if_pos hi]

theorem chainT_congr (par : ℕ → Option ℕ) (root : ℕ) (rv1 rv2 : M4)
    (step1 step2 : ℕ → ℕ → M4 → M4) (hrv : rv1 = rv2)
    (hstep : ∀ k p m, step1 k p m = step2 k p m) :
    ∀ fuel k, chainT par root rv1 step1 fuel k = chainT par root rv2 step2 fuel k := by
  subst hrv
  intro fuel
  induction fuel with
  | zero => intro k; rfl
  | succ fuel ih =>
    intro k
    rw [chainT, chainT]
    by_cases hk : k = root
    · rw [if_pos hk, if_pos hk]
    · rw [if_neg hk, if_neg hk]
      cases par k with
      | none => rfl
      | some p =>
        show Option.map (step1 k p) (chainT par root rv1 step1 fuel p) =
          Option.map (step2 k p) (chainT par root rv1 step2 fuel p)
        rw [ih p]
        cases chainT par root rv1 step2 fuel p with
        | none => rfl
        | some m =>
          simp only [Option.map_some']
          rw [hstep]

/-- `bindChain` only looks at the resolved parents and bind heads. -/
theorem bindChain_state_congr (t s : SkelState) (root : ℕ)
    (hpar : parOf t = parOf s) (hhead : headOf t = headOf s) :
    bindChain t root = bindChain s root := by
  rw [bindChain, bindChain, hpar, hhead]

/-- The bind matrix computed for a visited joint is the pure translation to
that joint's bind head (the chain of offsets telescopes). -/
theorem bindChain_eq_transM (s : SkelState) (root : ℕ) :
    ∀ fuel k bm, bindChain s root fuel k = some bm → bm = transM (headOf s k) := by
  intro fuel
  induction fuel with
  | zero => intro k bm h; exact absurd h (by simp [bindChain, chainT])
  | succ fuel ih =>
    intro k bm h
    rw [bindChain, chainT] at h
    by_cases hk : k = root
    · rw [if_pos hk] at h
      cases h
      rw [hk]
    · rw [if_neg hk] at h
      cases hp : parOf s k with
      | none => simp [hp] at h
      | some p =>
        simp only [hp, Option.map_eq_some'] at h
        obtain ⟨bp, hrec, hbm⟩ := h
        have hbp : bp = transM (headOf s p) := ih p bp hrec
        rw [← hbm, hbp, transM_mul, V3.add_sub_cancel2]

/-- Every joint's bind matrix after `build_hierarchy` is a translation
matrix (visited joints get the telescoped offset translation, unvisited
joints keep the identity). -/
theorem bindM_buildS_transM (js : List JointSpec) (k : ℕ) :
    ∃ c, (jsAt (buildHierarchyS js) k).bindM = transM c := by
  by_cases hk : k < js.length
  · have hk1 : k < (linkJoints js).joints.length := by
      rw [length_linkJoints]; exact hk
    rw [buildHierarchyS, (jsAt_initT_fields _ k).2.2.2.2.2]
    cases hroot : (linkJoints js).rootIdx with
    | none => rw [cbm_rootless _ hroot, jsAt_linkJoints js k, if_pos hk]
              exact ⟨0, transM_zero.symm⟩
    | some r =>
      rw [jsAt_cbm _ r hroot k, if_pos hk1]
      cases hbc : bindChain (linkJoints js) r ((linkJoints js).joints.length + 1) k with
      | none =>
        simp only []
        rw [jsAt_linkJoints js k, if_pos hk]
        exact ⟨0, transM_zero.symm⟩
      | some bm =>
        simp only []
        exact ⟨headOf (linkJoints js) k, bindChain_eq_transM _ r _ k bm hbc⟩
  · rw [jsAt_ge _ k (by
      rw [buildHierarchyS, length_initT, length_cbm, length_linkJoints]
      exact Nat.le_of_not_lt hk)]
    exact ⟨0, transM_zero.symm⟩

theorem length_buildS (js : List JointSpec) :
    (buildHierarchyS js).joints.length = js.length := by
  rw [buildHierarchyS, length_initT, length_cbm, length_linkJoints]

theorem parOf_buildS_eq_link (js : List JointSpec) :
    parOf (buildHierarchyS js) = parOf (linkJoints js) :=
  funext fun k => by
    rw [parOf, parOf, buildHierarchyS, (jsAt_initT_fields _ k).1,
      (jsAt_cbm_fields _ k).1]

theorem headOf_buildS_eq_link (js : List JointSpec) :
    headOf (buildHierarchyS js) = headOf (linkJoints js) :=
  funext fun k => by
    rw [headOf, headOf, buildHierarchyS, (jsAt_initT_fields _ k).2.1,
      (jsAt_cbm_fields _ k).2.1]

theorem parOf_setLocals_eq (L : ℕ → M4) (s : SkelState) :
    parOf (setLocals L s) = parOf s :=
  funext fun k => (jsAt_setLocals_fields L s k).1

theorem headOf_setLocals_eq (L : ℕ → M4) (s : SkelState) :
    headOf (setLocals L s) = headOf s :=
  funext fun k => (jsAt_setLocals_fields L s k).2.1

theorem globalT_eq_bindM_buildS (js : List JointSpec) (k : ℕ) :
    (jsAt (buildHierarchyS js) k).globalT = (jsAt (buildHierarchyS js) k).bindM := by
  rw [buildHierarchyS, jsAt_initT _ k]
  by_cases hk : k < (computeBindMatrices (linkJoints js)).joints.length
  · rw [if_pos hk]
  · rw [if_neg hk]; rfl

theorem localT_setLocals_one (L : ℕ → M4) (s : SkelState) (k : ℕ)
    (hL : ∀ j, L j = 1) : (jsAt (setLocals L s) k).localT = 1 := by
  rw [jsAt_setLocals L s k]
  by_cases hk : k < s.joints.length
  · rw [if_pos hk]; exact hL k
  · rw [if_neg hk]; rfl

theorem globalChain_eq_bindChain (s : SkelState) (root : ℕ)
    (hloc : ∀ k, (jsAt s k).localT = 1) :
    ∀ fuel k, globalChain s root fuel k = bindChain s root fuel k := by
  refine chainT_congr _ _ _ _ _ _ ?_ ?_
  · rw [hloc root, mul_one]
  · intro k p m
    rw [hloc k, mul_one]

theorem rootIdx_buildS_link (js : List JointSpec) :
    (buildHierarchyS js).rootIdx = (linkJoints js).rootIdx := by
  rw [rootIdx_buildS]; rfl

theorem bindM_s2 (js : List JointSpec) (L : ℕ → M4) (k : ℕ) :
    (jsAt (updateGlobals (setLocals L (buildHierarchyS js))) k).bindM =
      (jsAt (buildHierarchyS js) k).bindM := by
  rw [(jsAt_updateG_fields _ k).2.2.2.2.2, (jsAt_setLocals_fields _ _ k).2.2.2.2.1]

theorem bindM_s2_transM (js : List JointSpec) (L : ℕ → M4) (k : ℕ) :
    ∃ c, (jsAt (updateGlobals (setLocals L (buildHierarchyS js))) k).bindM =
      transM c := by
  rw [bindM_s2]
  exact bindM_buildS_transM js k

theorem globalT_eq_bindM_identity (js : List JointSpec) (L : ℕ → M4)
    (hL : ∀ k, L k = 1) (k : ℕ) :
    (jsAt (updateGlobals (setLocals L (buildHierarchyS js))) k).globalT =
      (jsAt (updateGlobals (setLocals L (buildHierarchyS js))) k).bindM := by
  set s0 := buildHierarchyS js with hs0
  set s1 := setLocals L s0 with hs1
  have hloc : ∀ j, (jsAt s1 j).localT = 1 := fun j =>
    localT_setLocals_one L s0 j hL
  have hglobalT1 : ∀ j, (jsAt s1 j).globalT = (jsAt s1 j).bindM := by
    intro j
    rw [(jsAt_setLocals_fields L s0 j).2.2.2.2.2,
      (jsAt_setLocals_fields L s0 j).2.2.2.2.1]
    exact globalT_eq_bindM_buildS js j
  cases hroot : s1.rootIdx with
  | none =>
    rw [updateG_rootless s1 hroot]
    exact hglobalT1 k
  | some r =>
    have hrootlink : (linkJoints js).rootIdx = some r := by
      rw [← rootIdx_buildS_link js, ← rootIdx_setLocals L s0]
      exact hroot
    by_cases hk : k < s1.joints.length
    · rw [jsAt_updateG s1 r hroot k, if_pos hk]
      cases hg : globalChain s1 r (s1.joints.length + 1) k with
      | none => exact hglobalT1 k
      | some g =>
        show g = (jsAt s1 k).bindM
        have hbc1 : bindChain s1 r (s1.joints.length + 1) k = some g := by
          rw [← globalChain_eq_bindChain s1 r hloc]
          exact hg
        have hpar1 : parOf s1 = parOf (linkJoints js) := by
          rw [hs1, parOf_setLocals_eq, hs0, parOf_buildS_eq_link]
        have hhead1 : headOf s1 = headOf (linkJoints js) := by
          rw [hs1, headOf_setLocals_eq, hs0, headOf_buildS_eq_link]
        have hlen1 : s1.joints.length = (linkJoints js).joints.length := by
          rw [hs1, length_setLocals, hs0, length_buildS, length_linkJoints]
        have hbc0 : bindChain (linkJoints js) r
            ((linkJoints js).joints.length + 1) k = some g := by
          rw [← bindChain_state_congr s1 (linkJoints js) r hpar1 hhead1, ← hlen1]
          exact hbc1
        have hkl : k < (linkJoints js).joints.length := by
          rw [← hlen1]; exact hk
        rw [(jsAt_setLocals_fields L s0 k).2.2.2.2.1, hs0, buildHierarchyS,
          (jsAt_initT_fields _ k).2.2.2.2.2, jsAt_cbm _ r hrootlink k,
          if_pos hkl, hbc0]
    · rw [jsAt_ge _ k (by rw [length_updateG]; exact Nat.le_of_not_lt hk)]
      rfl

theorem skinMat_identity_locals (js : List JointSpec) (L : ℕ → M4)
    (hL : ∀ k, L k = 1) (b : Bone) :
    skinMat (updateGlobals (setLocals L (buildHierarchyS js))) b = 1 := by
  rw [skinMat, gAt, binvAt, globalT_eq_bindM_identity js L hL b.eIdx]
  obtain ⟨c, hc⟩ := bindM_s2_transM js L b.eIdx
  rw [hc, m4inv_transM, transM_mul_neg]

theorem lbsVertex_of_skin_one (s : SkelState) (w : ℕ → ℚ) (v : V3)
    (hskin : ∀ b, skinMat s b = 1)
    (hw : ∑ bi in Finset.range (bonesOf s).length, w bi = 1) :
    lbsVertex s w v = v := by
  rw [lbsVertex]
  rw [Finset.sum_congr rfl (fun bi _ => by
    rw [hskin ((bonesOf s).getD bi defBone), Matrix.one_mulVec])]
  rw [← Finset.sum_smul, hw, one_smul, dropW_homo]

/-- C3: if every joint's local transform is the identity, the deformed
vertex buffer produced by `SkinDeformer.update()` after
`update_global_transforms` agrees with the mesh's bind-pose vertices within
tolerance `1e-5` in every coordinate, for every vertex (for any weight
matrix whose rows sum to 1, the weight-matrix invariant).  The proof gives
exact equality, of which the `1e-5` bound is a weakening. -/
theorem c3_bind_pose_identity (js : List JointSpec) (L : ℕ → M4)
    (hL : ∀ k, L k = 1) (mesh : List V3) (w : ℕ → ℕ → ℚ)
    (hw : ∀ i, i < mesh.length →
      ∑ bi in Finset.range
        (bonesOf (updateGlobals (setLocals L (buildHierarchyS js)))).length,
        w i bi = 1)
    (i : ℕ) (hi : i < mesh.length) :
    |((deformedVerts (updateGlobals (setLocals L (buildHierarchyS js))) w
        mesh).getD i 0).x - (mesh.getD i 0).x| ≤ 1 / 100000 ∧
    |((deformedVerts (updateGlobals (setLocals L (buildHierarchyS js))) w
        mesh).getD i 0).y - (mesh.getD i 0).y| ≤ 1 / 100000 ∧
    |((deformedVerts (updateGlobals (setLocals L (buildHierarchyS js))) w
        mesh).getD i 0).z - (mesh.getD i 0).z| ≤ 1 / 100000 := by
  have heq : (deformedVerts (updateGlobals (setLocals L (buildHierarchyS js)))
      w mesh).getD i 0 = mesh.getD i 0 := by
    rw [deformedVerts_getD _ _ _ i hi]
    exact lbsVertex_of_skin_one _ _ _ (skinMat_identity_locals js L hL) (hw i hi)
  rw [heq]
  norm_num

def cexJs3 : List JointSpec :=
  [{ name := nmA, idx := 0, head := ⟨1, 2, 3⟩, tail := 0, parentName := none },
   { name := nmB, idx := 1, head := ⟨1, 2, 4⟩, tail := 0,
     parentName := some nmA }]

def cexMesh3 : List V3 := [⟨5, 5, 5⟩]

/-- C3 witness at a two-joint skeleton with a one-vertex mesh and the
all-ones weight row. -/
theorem c3_bind_pose_identity_witness :
    |((deformedVerts (updateGlobals (setLocals (fun _ => 1)
        (buildHierarchyS cexJs3))) (fun _ _ => 1)
        cexMesh3).getD 0 0).x - (cexMesh3.getD 0 0).x| ≤ 1 / 100000 ∧
    |((deformedVerts (updateGlobals (setLocals (fun _ => 1)
        (buildHierarchyS cexJs3))) (fun _ _ => 1)
        cexMesh3).getD 0 0).y - (cexMesh3.getD 0 0).y| ≤ 1 / 100000 ∧
    |((deformedVerts (updateGlobals (setLocals (fun _ => 1)
        (buildHierarchyS cexJs3))) (fun _ _ => 1)
        cexMesh3).getD 0 0).z - (cexMesh3.getD 0 0).z| ≤ 1 / 100000 := by
  have hb : (bonesOf (updateGlobals (setLocals (fun _ => (1 : M4))
      (buildHierarchyS cexJs3)))).length = 1 := rfl
  exact c3_bind_pose_identity cexJs3 (fun _ => 1) (fun _ => rfl) cexMesh3
    (fun _ _ => 1) (fun i _ => by rw [hb]; simp) 0 (by decide)

theorem transM_det_ne_zero (c : V3) : (transM c).det ≠ 0 := by
  have h := congrArg Matrix.det (transM_mul_neg c)
  rw [Matrix.det_mul, Matrix.det_one] at h
  exact left_ne_zero_of_mul_eq_one h

theorem skinMat_spec (js : List JointSpec) (L : ℕ → M4) (b : Bone) :
    skinMat (updateGlobals (setLocals L (buildHierarchyS js))) b =
      (jsAt (updateGlobals (setLocals L (buildHierarchyS js))) b.eIdx).globalT *
      ((jsAt (updateGlobals (setLocals L (buildHierarchyS js))) b.eIdx).bindM)⁻¹ := by
  rw [skinMat, gAt, binvAt]
  obtain ⟨c, hc⟩ := bindM_s2_transM js L b.eIdx
  rw [m4inv_eq_inv (by rw [hc]; exact transM_det_ne_zero c)]

theorem idx_s2 (js : List JointSpec) (L : ℕ → M4) (k : ℕ)
    (hk : k < js.length) :
    (jsAt (updateGlobals (setLocals L (buildHierarchyS js))) k).idx =
      (specAt js k).idx := by
  rw [(jsAt_updateG_fields _ k).2.2.2.1, (jsAt_setLocals_fields _ _ k).2.2.2.1,
    buildHierarchyS, (jsAt_initT_fields _ k).2.2.2.1,
    (jsAt_cbm_fields _ k).2.2.2.1, jsAt_linkJoints js k, if_pos hk]
  rfl

/-- C4: at `update()` time, the skinning matrix of each bone is the bone's
end joint's current global transform multiplied by that joint's bind-matrix
inverse, and each deformed vertex is the weighted sum, over the bones with
non-zero weight for that vertex, of the skinning matrix applied to the
vertex's homogeneous bind-pose position, with the W component dropped after
summation (`v' = Σ_b w[v,b] · (G_b · B_b⁻¹) · v_bind`).  The hypothesis ties
each joint's stable `.index` to its list position, which is how the
deformer's per-position arrays associate a bone with its end joint. -/
theorem c4_lbs_formula (js : List JointSpec) (L : ℕ → M4) (mesh : List V3)
    (w : ℕ → ℕ → ℚ) (hidx : ∀ k, k < js.length → (specAt js k).idx = k) :
    let s2 := updateGlobals (setLocals L (buildHierarchyS js))
    (∀ k p, k < js.length → parOf s2 k = some p →
      (mkBone (jsAt s2 p) (jsAt s2 k)).eIdx = k ∧
      skinMat s2 (mkBone (jsAt s2 p) (jsAt s2 k)) =
        (jsAt s2 k).globalT * ((jsAt s2 k).bindM)⁻¹) ∧
    (∀ i, i < mesh.length → (deformedVerts s2 w mesh).getD i 0 =
      dropW (∑ bi in (Finset.range (bonesOf s2).length).filter
          (fun bi => w i bi ≠ 0),
        w i bi • (((jsAt s2 ((bonesOf s2).getD bi defBone).eIdx).globalT *
          ((jsAt s2 ((bonesOf s2).getD bi defBone).eIdx).bindM)⁻¹).mulVec
            (homo (mesh.getD i 0))))) := by
  intro s2
  constructor
  · intro k p hk hpar
    have heidx : (mkBone (jsAt s2 p) (jsAt s2 k)).eIdx = k := by
      show (jsAt s2 k).idx = k
      rw [idx_s2 js L k hk]
      exact hidx k hk
    refine ⟨heidx, ?_⟩
    rw [skinMat_spec js L, heidx]
  · intro i hi
    rw [deformedVerts_getD _ _ _ i hi, lbsVertex]
    rw [Finset.sum_congr rfl (fun bi _ => by rw [skinMat_spec js L])]
    show dropW _ = dropW _
    congr 1
    symm
    apply Finset.sum_filter_of_ne
    intro bi _ hf hw0
    exact hf (by rw [hw0, zero_smul])

/-- C4 witness at a concrete two-joint skeleton. -/
theorem c4_lbs_formula_witness :
    let s2 := updateGlobals (setLocals (fun _ => 1) (buildHierarchyS cexJs3))
    (∀ k p, k < cexJs3.length → parOf s2 k = some p →
      (mkBone (jsAt s2 p) (jsAt s2 k)).eIdx = k ∧
      skinMat s2 (mkBone (jsAt s2 p) (jsAt s2 k)) =
        (jsAt s2 k).globalT * ((jsAt s2 k).bindM)⁻¹) ∧
    (∀ i, i < cexMesh3.length →
      (deformedVerts s2 (fun _ _ => 1) cexMesh3).getD i 0 =
      dropW (∑ bi in (Finset.range (bonesOf s2).length).filter
          (fun _ => (1 : ℚ) ≠ 0),
        (1 : ℚ) • (((jsAt s2 ((bonesOf s2).getD bi defBone).eIdx).globalT *
          ((jsAt s2 ((bonesOf s2).getD bi defBone).eIdx).bindM)⁻¹).mulVec
            (homo (cexMesh3.getD i 0))))) :=
  c4_lbs_formula cexJs3 (fun _ => 1) cexMesh3 (fun _ _ => 1) (by decide)

/-- Embedding of a 3×3 linear map acting on a `V3`. -/
def lin3 (R : Matrix (Fin 3) (Fin 3) ℚ) (v : V3) : V3 :=
  ⟨R 0 0 * v.x + R 0 1 * v.y + R 0 2 * v.z,
   R 1 0 * v.x + R 1 1 * v.y + R 1 2 * v.z,
   R 2 0 * v.x + R 2 1 * v.y + R 2 2 * v.z⟩

/-- A pure-rotation local transform: the 3×3 block embedded into a 4×4
homogeneous matrix with zero translation. -/
def rotM (R : Matrix (Fin 3) (Fin 3) ℚ) : M4 := Matrix.of fun i j =>
  ![![R 0 0, R 0 1, R 0 2, 0],
    ![R 1 0, R 1 1, R 1 2, 0],
    ![R 2 0, R 2 1, R 2 2, 0],
    ![0, 0, 0, 1]] i j

theorem rotM_mulVec_homo (R : Matrix (Fin 3) (Fin 3) ℚ) (v : V3) :
    (rotM R).mulVec (homo v) = homo (lin3 R v) := by
  funext k
  fin_cases k <;>
    simp [rotM, homo, lin3, Matrix.mulVec, Matrix.dotProduct,
      Fin.sum_univ_four]

/-- With the root's local transform `A` and every other visited joint's
local transform the identity, the recomputed global transform of a visited
joint `k` is `T(root.head) · A · T(head k − root.head)`. -/
theorem globalChain_conj (s : SkelState) (root : ℕ) (A : M4)
    (hroot : (jsAt s root).localT = A)
    (hother : ∀ k, k ≠ root → (jsAt s k).localT = 1) :
    ∀ fuel k g, globalChain s root fuel k = some g →
      g = transM (headOf s root) * A * transM (headOf s k - headOf s root) := by
  intro fuel
  induction fuel with
  | zero => intro k g h; exact absurd h (by simp [globalChain, chainT])
  | succ fuel ih =>
    intro k g h
    rw [globalChain, chainT] at h
    by_cases hk : k = root
    · rw [if_pos hk] at h
      cases h
      rw [hk, V3.sub_self, transM_zero, mul_one, hroot]
    · rw [if_neg hk] at h
      cases hp : parOf s k with
      | none => simp [hp] at h
      | some p =>
        simp only [hp, Option.map_eq_some'] at h
        obtain ⟨gp, hrec, hg⟩ := h
        have hgp := ih p gp hrec
        rw [← hg, hgp, hother k hk, mul_one, mul_assoc, mul_assoc,
          transM_mul, V3.sub_add_sub, ← mul_assoc]

theorem getD_mem {α : Type _} (l : List α) (d : α) (bi : ℕ) (h : bi < l.length) :
    l.getD bi d ∈ l := by
  rw [List.getD_eq_getElem?_getD, List.getElem?_eq_getElem h]
  exact List.getElem_mem _

theorem bonesOf_mem (s : SkelState) (b : Bone) (hb : b ∈ bonesOf s) :
    ∃ k, k < s.joints.length ∧ ∃ p, parOf s k = some p ∧
      b = mkBone (jsAt s p) (jsAt s k) := by
  rw [bonesOf] at hb
  obtain ⟨k, hk, hfk⟩ := List.mem_filterMap.mp hb
  obtain ⟨p, hp, hmk⟩ := Option.map_eq_some'.mp hfk
  exact ⟨k, List.mem_range.mp hk, p, hp, hmk.symm⟩

theorem lbsVertex_const_skin (s : SkelState) (w : ℕ → ℚ) (v : V3) (K : M4)
    (hskin : ∀ b ∈ bonesOf s, skinMat s b = K)
    (hw : ∑ bi in Finset.range (bonesOf s).length, w bi = 1) :
    lbsVertex s w v = dropW (K.mulVec (homo v)) := by
  rw [lbsVertex]
  rw [Finset.sum_congr rfl (fun bi hbi => by
    rw [hskin _ (getD_mem _ _ _ (Finset.mem_range.mp hbi))])]
  rw [← Finset.sum_smul, hw, one_smul]

theorem skinMat_rigid (js : List JointSpec) (L : ℕ → M4)
    (R : Matrix (Fin 3) (Fin 3) ℚ) (r : ℕ)
    (hrootS : (buildHierarchyS js).rootIdx = some r)
    (hLroot : L r = rotM R)
    (hLother : ∀ k, k ≠ r → L k = 1)
    (hidx : ∀ k, k < js.length → (specAt js k).idx = k)
    (hreach : ∀ k, k < js.length →
      reachesRoot (parOf (buildHierarchyS js)) r (js.length + 1) k = true) :
    ∀ b ∈ bonesOf (updateGlobals (setLocals L (buildHierarchyS js))),
      skinMat (updateGlobals (setLocals L (buildHierarchyS js))) b =
        transM (headOf (buildHierarchyS js) r) * rotM R *
          transM (-(headOf (buildHierarchyS js) r)) := by
  intro b hb
  set s0 := buildHierarchyS js with hs0
  set s1 := setLocals L s0 with hs1
  set s2 := updateGlobals s1 with hs2
  obtain ⟨k, hk2, p, hpar, hbeq⟩ := bonesOf_mem s2 b hb
  have hlen2 : s2.joints.length = js.length := by
    rw [hs2, length_updateG, hs1, length_setLocals, hs0, length_buildS]
  have hkn : k < js.length := by rw [← hlen2]; exact hk2
  have hrlt : r < js.length :=
    (firstRootIdx_spec js r (by rw [← rootIdx_buildS]; exact hrootS)).1
  have heidx : b.eIdx = k := by
    rw [hbeq]
    show (jsAt s2 k).idx = k
    rw [hs2, hs1, hs0, idx_s2 js L k hkn]
    exact hidx k hkn
  have hlen1 : s1.joints.length = js.length := by
    rw [hs1, length_setLocals, hs0, length_buildS]
  have hroot1 : s1.rootIdx = some r := by
    rw [hs1, rootIdx_setLocals]
    exact hrootS
  have hpar10 : parOf s1 = parOf s0 := parOf_setLocals_eq L s0
  have hhead10 : headOf s1 = headOf s0 := headOf_setLocals_eq L s0
  have hlocroot : (jsAt s1 r).localT = rotM R := by
    rw [hs1, jsAt_setLocals L s0 r, if_pos (by rw [hs0, length_buildS]; exact hrlt)]
    exact hLroot
  have hlocother : ∀ j, j ≠ r → (jsAt s1 j).localT = 1 := by
    intro j hj
    rw [hs1, jsAt_setLocals L s0 j]
    by_cases hjn : j < s0.joints.length
    · rw [if_pos hjn]; exact hLother j hj
    · rw [if_neg hjn]; rfl
  have hsome : (globalChain s1 r (s1.joints.length + 1) k).isSome = true := by
    rw [globalChain, chainT_isSome, hpar10, hlen1]
    exact hreach k hkn
  obtain ⟨g, hg⟩ := Option.isSome_iff_exists.mp hsome
  have hgval : g = transM (headOf s0 r) * rotM R *
      transM (headOf s0 k - headOf s0 r) := by
    have hcj := globalChain_conj s1 r (rotM R) hlocroot hlocother
      (s1.joints.length + 1) k g hg
    rwa [hhead10] at hcj
  have hGT : (jsAt s2 k).globalT = g := by
    rw [hs2, jsAt_updateG s1 r hroot1 k, if_pos (by rw [hlen1]; exact hkn), hg]
  have hpar0link : parOf s0 = parOf (linkJoints js) := parOf_buildS_eq_link js
  have hheadlink : headOf s0 = headOf (linkJoints js) := headOf_buildS_eq_link js
  have hrootlink : (linkJoints js).rootIdx = some r := by
    rw [← rootIdx_buildS_link js]
    exact hrootS
  have hbsome : (bindChain (linkJoints js) r
      ((linkJoints js).joints.length + 1) k).isSome = true := by
    rw [bindChain, chainT_isSome, ← hpar0link, length_linkJoints]
    exact hreach k hkn
  obtain ⟨bm, hbm⟩ := Option.isSome_iff_exists.mp hbsome
  have hbmval : bm = transM (headOf s0 k) := by
    have hv := bindChain_eq_transM (linkJoints js) r _ k bm hbm
    rwa [← hheadlink] at hv
  have hBM : (jsAt s2 k).bindM = transM (headOf s0 k) := by
    rw [hs2, hs1, hs0, bindM_s2 js L k, ← hs0]
    rw [hs0, buildHierarchyS, (jsAt_initT_fields _ k).2.2.2.2.2,
      jsAt_cbm _ r hrootlink k, if_pos (by rw [length_linkJoints]; exact hkn),
      hbm]
    exact hbmval
  rw [skinMat, heidx, gAt, binvAt, hGT, hgval, hBM, m4inv_transM,
    mul_assoc (transM (headOf s0 r) * rotM R), transM_mul, V3.sub_add_neg]

/-- The deformed position under a root-only rotation: the whole mesh rotates
rigidly about the root head,
`v' = R (v - root.head) + root.head`. -/
theorem deform_rigid_root (js : List JointSpec) (L : ℕ → M4)
    (R : Matrix (Fin 3) (Fin 3) ℚ) (r : ℕ) (mesh : List V3) (w : ℕ → ℕ → ℚ)
    (hrootS : (buildHierarchyS js).rootIdx = some r)
    (hLroot : L r = rotM R)
    (hLother : ∀ k, k ≠ r → L k = 1)
    (hidx : ∀ k, k < js.length → (specAt js k).idx = k)
    (hreach : ∀ k, k < js.length →
      reachesRoot (parOf (buildHierarchyS js)) r (js.length + 1) k = true)
    (hw : ∀ i, i < mesh.length →
      ∑ bi in Finset.range
        (bonesOf (updateGlobals (setLocals L (buildHierarchyS js)))).length,
        w i bi = 1)
    (i : ℕ) (hi : i < mesh.length) :
    (deformedVerts (updateGlobals (setLocals L (buildHierarchyS js))) w
        mesh).getD i 0 =
      lin3 R ((mesh.getD i 0) - headOf (buildHierarchyS js) r) +
        headOf (buildHierarchyS js) r := by
  rw [deformedVerts_getD _ _ _ i hi]
  rw [lbsVertex_const_skin _ _ _ _
    (skinMat_rigid js L R r hrootS hLroot hLother hidx hreach) (hw i hi)]
  rw [← Matrix.mulVec_mulVec, ← Matrix.mulVec_mulVec, transM_mulVec_homo,
    V3.add_neg_eq_sub, rotM_mulVec_homo, transM_mulVec_homo, dropW_homo]

/-- 90° rotation about the Z axis (a pure rotation with rational entries). -/
def cexR90 : Matrix (Fin 3) (Fin 3) ℚ :=
  Matrix.of ![![0, -1, 0], ![1, 0, 0], ![0, 0, 1]]

theorem cexR90_orth : cexR90.transpose * cexR90 = 1 := by
  ext i j
  fin_cases i <;> fin_cases j <;>
    simp [cexR90, Matrix.mul_apply, Matrix.transpose_apply, Matrix.one_apply,
      Fin.sum_univ_three, Matrix.vecHead, Matrix.vecTail]

/-- Root at `(1,0,0)` (off the origin), one child bone. -/
def cexJs5 : List JointSpec :=
  [{ name := nmA, idx := 0, head := ⟨1, 0, 0⟩, tail := 0, parentName := none },
   { name := nmB, idx := 1, head := ⟨1, 1, 0⟩, tail := 0,
     parentName := some nmA }]

def cexL5 : ℕ → M4 := fun k => if k = 0 then rotM cexR90 else 1

def cexMesh5 : List V3 := [⟨0, 0, 0⟩]

def cexW5 : ℕ → ℕ → ℚ := fun _ _ => 1

theorem cexJs5_reach : ∀ k, k < cexJs5.length →
    reachesRoot (parOf (buildHierarchyS cexJs5)) 0 (cexJs5.length + 1) k = true := by
  decide

theorem cexJs5_hw : ∀ i, i < cexMesh5.length →
    ∑ bi in Finset.range
      (bonesOf (updateGlobals (setLocals cexL5 (buildHierarchyS cexJs5)))).length,
      cexW5 i bi = 1 := by
  have hlen : (bonesOf (updateGlobals (setLocals cexL5
      (buildHierarchyS cexJs5)))).length = 1 := rfl
  intro i _
  rw [hlen]
  simp [cexW5]

/-- C5 counterexample: with the root head at `(1,0,0)` and the root local
transform the pure rotation `cexR90` (all other locals identity, weights
valid), the vertex at the origin deforms to `(1,-1,0)`, not to
`R · v = (0,0,0)`: the deformed vertex does *not* equal `R` applied to its
bind position when the root head is off the origin. -/
theorem c5_counterexample :
    (deformedVerts (updateGlobals (setLocals cexL5 (buildHierarchyS cexJs5)))
        cexW5 cexMesh5).getD 0 0 ≠ lin3 cexR90 (cexMesh5.getD 0 0) ∧
    cexR90.transpose * cexR90 = 1 ∧
    cexL5 0 = rotM cexR90 ∧ (∀ k, k ≠ 0 → cexL5 k = 1) := by
  refine ⟨?_, cexR90_orth, rfl, fun k hk => if_neg hk⟩
  have h := deform_rigid_root cexJs5 cexL5 cexR90 0 cexMesh5 cexW5 rfl rfl
    (fun k hk => if_neg hk) (by decide) cexJs5_reach cexJs5_hw 0 (by decide)
  rw [h]
  have hhead : headOf (buildHierarchyS cexJs5) 0 = ⟨1, 0, 0⟩ := rfl
  have hv : cexMesh5.getD 0 0 = ⟨0, 0, 0⟩ := rfl
  rw [hhead, hv]
  simp only [lin3, cexR90, V3.sub_def, V3.add_def, Matrix.of_apply,
    Matrix.cons_val', Matrix.cons_val_zero, Matrix.cons_val_one,
    Matrix.head_cons, Matrix.empty_val', Matrix.cons_val_fin_one,
    Matrix.head_fin_const, ne_eq, V3.mk.injEq]
  norm_num

/-- C5 amended: if only the root joint's local transform is set to a pure
rotation `R` (every other local identity), then after
`update_global_transforms` and `SkinDeformer.update()` every deformed vertex
equals `R` applied to that vertex's bind position *relative to the root
head*: `v' = R (v - root.head) + root.head` — the mesh rotates rigidly about
the root head, and `v' = R v` exactly when the root head is the origin. -/
theorem c5_rigid_root_rotation (js : List JointSpec) (L : ℕ → M4)
    (R : Matrix (Fin 3) (Fin 3) ℚ) (r : ℕ) (mesh : List V3) (w : ℕ → ℕ → ℚ)
    (_hRot : R.transpose * R = 1)
    (hrootS : (buildHierarchyS js).rootIdx = some r)
    (hLroot : L r = rotM R)
    (hLother : ∀ k, k ≠ r → L k = 1)
    (hidx : ∀ k, k < js.length → (specAt js k).idx = k)
    (hreach : ∀ k, k < js.length →
      reachesRoot (parOf (buildHierarchyS js)) r (js.length + 1) k = true)
    (hw : ∀ i, i < mesh.length →
      ∑ bi in Finset.range
        (bonesOf (updateGlobals (setLocals L (buildHierarchyS js)))).length,
        w i bi = 1)
    (i : ℕ) (hi : i < mesh.length) :
    (deformedVerts (updateGlobals (setLocals L (buildHierarchyS js))) w
        mesh).getD i 0 =
      lin3 R ((mesh.getD i 0) - headOf (buildHierarchyS js) r) +
        headOf (buildHierarchyS js) r :=
  deform_rigid_root js L R r mesh w hrootS hLroot hLother hidx hreach hw i hi

/-- C5 amended-claim witness at the concrete off-origin skeleton. -/
theorem c5_rigid_root_rotation_witness :
    (deformedVerts (updateGlobals (setLocals cexL5 (buildHierarchyS cexJs5)))
        cexW5 cexMesh5).getD 0 0 =
      lin3 cexR90 ((cexMesh5.getD 0 0) - headOf (buildHierarchyS cexJs5) 0) +
        headOf (buildHierarchyS cexJs5) 0 :=
  c5_rigid_root_rotation cexJs5 cexL5 cexR90 0 cexMesh5 cexW5 cexR90_orth rfl
    rfl (fun k hk => if_neg hk) (by decide) cexJs5_reach cexJs5_hw 0 (by decide)

/-!
Weight calculator, embedding `skinning/weight_calculator.py`
(`WeightCalculatorV15`).  Distances are carried squared (see the header
comment): `point_to_segment_distance(v, a, b) ** 2` is `psd2 v a b`,
`sqrt q < r` is `0 ≤ r ∧ q < r ^ 2`, comparisons of two distances compare
the squares, and `max(top[0][1], 0.001) ** 2 = max (top[0].d2) 1e-6`.
The shoulder kernel's `** 1.5` is the abstract parameter `pw` applied to
the squared ratio.
-/

/-- `point_to_segment_distance` (`utils/geometry.py`), squared: clamped
projection onto the segment, with the point-to-point fallback when the
squared segment length is below `1e-10`. -/
def psd2 (p s e : V3) : ℚ :=
  let ab := e - s
  let ap := p - s
  let ab2 := dotV ab ab
  if ab2 < 1 / 10000000000 then dist2 p s
  else
    let t := dotV ap ab / ab2
    let tc := max 0 (min 1 t)
    dist2 p (s + tc • ab)

theorem psd2_nonneg (p s e : V3) : 0 ≤ psd2 p s e := by
  rw [psd2]
  dsimp only
  split
  · exact dist2_nonneg p s
  · exact dist2_nonneg p _

/-- `mesh.get_bounding_box()`: componentwise min/max over the vertex
positions, `(0,0)` for an empty mesh. -/
def bboxOf (mesh : List V3) : V3 × V3 :=
  match mesh with
  | [] => (0, 0)
  | v :: vs => vs.foldl (fun mm u =>
      (⟨min mm.1.x u.x, min mm.1.y u.y, min mm.1.z u.z⟩,
       ⟨max mm.2.x u.x, max mm.2.y u.y, max mm.2.z u.z⟩)) (v, v)

/-- `model_info['height'] = bbox_max.z - bbox_min.z`. -/
def heightOf (mesh : List V3) : ℚ := (bboxOf mesh).2.z - (bboxOf mesh).1.z

/-- `model_info['length'] = bbox_max.y - bbox_min.y`. -/
def lengthOf (mesh : List V3) : ℚ := (bboxOf mesh).2.y - (bboxOf mesh).1.y

/-- `_get_key_bones` result: first qualifying head bone, first chest bone,
and the per-region ankle dictionary (insertion-ordered, last write wins). -/
structure KeyBones where
  headIdx : Option ℕ
  headPos : Option V3
  chestIdx : Option ℕ
  chestPos : Option V3
  ankles : List (Region × ℕ × V3)

def kbInit : KeyBones := ⟨none, none, none, none, []⟩

/-- Python-dict assignment `ankles[region] = value`: overwrite in place on
an existing key, append otherwise. -/
def upsertAnkle (rg : Region) (v : ℕ × V3) :
    List (Region × ℕ × V3) → List (Region × ℕ × V3)
  | [] => [(rg, v)]
  | e :: rest => if e.1 = rg then (rg, v) :: rest else e :: upsertAnkle rg v rest

/-- `region.startswith('ankle_')`. -/
def isAnkleRegion : Region → Bool
  | .ankle_BL => true
  | .ankle_BR => true
  | .ankle_FL => true
  | .ankle_FR => true
  | _ => false

def kwChest : List Char := "chest".data

/-- The head-key branch of the `_get_key_bones` loop: the first bone tagged
`'head'` whose lowercased name and end-joint name both contain the head
marker. -/
def kbStepHead (regions : List Region) (i : ℕ) (b : Bone) (kb : KeyBones) :
    KeyBones :=
  if regions.getD i Region.spine = Region.head ∧ kb.headIdx = none ∧
      hasSub kwRigHead (toLowerL (boneName b)) = true ∧
      hasSub kwRigHead (toLowerL b.eName) = true then
    { kb with headIdx := some i, headPos := some b.eHead }
  else kb

/-- The chest-key branch: the first bone whose lowercased name contains
`'chest'`, regardless of region. -/
def kbStepChest (i : ℕ) (b : Bone) (kb : KeyBones) : KeyBones :=
  if hasSub kwChest (toLowerL (boneName b)) = true ∧ kb.chestIdx = none then
    { kb with chestIdx := some i, chestPos := some b.sHead }
  else kb

/-- The ankle branch: `ankles[region] = (bone_idx, end head)` for every
ankle-region bone. -/
def kbStepAnkle (regions : List Region) (i : ℕ) (b : Bone) (kb : KeyBones) :
    KeyBones :=
  if isAnkleRegion (regions.getD i Region.spine) then
    { kb with ankles :=
        upsertAnkle (regions.getD i Region.spine) (i, b.eHead) kb.ankles }
  else kb

/-- One iteration of the `_get_key_bones` loop over `(bone_idx, region)`:
the three branches in source order. -/
def kbStep (regions : List Region) (i : ℕ) (b : Bone) (kb : KeyBones) :
    KeyBones :=
  kbStepAnkle regions i b (kbStepChest i b (kbStepHead regions i b kb))

def keyBonesGo (regions : List Region) : ℕ → List Bone → KeyBones → KeyBones
  | _, [], kb => kb
  | i, b :: rest, kb => keyBonesGo regions (i + 1) rest (kbStep regions i b kb)

def keyBonesOf (bones : List Bone) (regions : List Region) : KeyBones :=
  keyBonesGo regions 0 bones kbInit

/-- One iteration of the `_check_ankle_strict` loop: skip ankles on the
wrong side (`'L' in region` vs `vertex.x > 0`), then keep the closest ankle
whose height and radius conditions hold.  `best` carries
`(closest_ankle, closest_dist²)`. -/
def ankleStep (height : ℚ) (v : V3) (best : Option (ℕ × ℚ))
    (e : Region × ℕ × V3) : Option (ℕ × ℚ) :=
  let isLeft : Bool := e.1 == Region.ankle_BL || e.1 == Region.ankle_FL
  let isLeftV : Bool := decide (0 < v.x)
  if isLeft ≠ isLeftV then best
  else
    let d2 := (v.x - e.2.2.x) ^ 2 + (v.y - e.2.2.y) ^ 2 + (v.z - e.2.2.z) ^ 2
    if v.z < e.2.2.z + height * (2 / 100) ∧
        0 ≤ height * (4 / 100) ∧ d2 < (height * (4 / 100)) ^ 2 then
      (match best with
       | none => some (e.2.1, d2)
       | some bd => if d2 < bd.2 then some (e.2.1, d2) else best)
    else best

/-- `_check_ankle_strict`: the closest matching-side ankle within the
radius and height window, if any. -/
def checkAnkleStrict (kb : KeyBones) (height : ℚ) (v : V3) : Option ℕ :=
  (kb.ankles.foldl (ankleStep height v) none).map Prod.fst

/-- `_is_shoulder_enhanced`: the axis-aligned box around the chest key
position. -/
def isShoulderEnhanced (kb : KeyBones) (v : V3) : Bool :=
  match kb.chestPos with
  | none => false
  | some c =>
    decide (-(25 / 100) < v.y - c.y ∧ v.y - c.y < 25 / 100 ∧
      3 / 100 < |v.x - c.x| ∧ |v.x - c.x| < 35 / 100 ∧
      -(15 / 100) < v.z - c.z ∧ v.z - c.z < 3 / 10)

/-- `_get_excluded_bones` membership: every region except head and neck is
excluded in the head zone. -/
def isExcludedRegion : Region → Bool
  | .head => false
  | .neck => false
  | _ => true

/-- `_get_allowed_bones`' `groups` table as a membership predicate
(the `.get` default `{region, 'spine'}` is unreachable: every region is a
key of the table). -/
def allowedFor : Region → Region → Bool
  | .head, r => r == .head || r == .neck
  | .neck, r => r == .head || r == .neck || r == .spine
  | .spine, r => r == .spine || r == .neck
  | .tail, r => r == .tail || r == .spine
  | .front_leg_L, r => r == .front_leg_L || r == .spine
  | .front_leg_R, r => r == .front_leg_R || r == .spine
  | .back_leg_L, r => r == .back_leg_L || r == .spine
  | .back_leg_R, r => r == .back_leg_R || r == .spine
  | .ankle_BL, r => r == .ankle_BL || r == .back_leg_L
  | .ankle_BR, r => r == .ankle_BR || r == .back_leg_R
  | .ankle_FL, r => r == .ankle_FL || r == .front_leg_L
  | .ankle_FR, r => r == .ankle_FR || r == .front_leg_R

/-- `_get_allowed_bones`: bone indices whose region is in the group, with
`[nearest]` as the non-empty fallback. -/
def allowedBones (rg : Region) (regions : List Region) (nearest : ℕ) :
    List ℕ :=
  let l := (regions.enum.filter (fun pr => allowedFor rg pr.2)).map
    (fun pr => pr.1)
  if l.isEmpty then [nearest] else l

/-- `_compute_head_bounds`: the min y/z extent of the head/neck bones with
margins; `none` embeds the `float('inf')` bounds of a skeleton with no
head/neck bones (with which `_is_in_head_region` is always `False`). -/
def headBoundsOf (bones : List Bone) (regions : List Region)
    (len height : ℚ) : Option (ℚ × ℚ) :=
  (bones.enum.foldl (fun acc pr =>
    let rg := regions.getD pr.1 Region.spine
    if rg == Region.head || rg == Region.neck then
      (match acc with
       | none => some (min pr.2.sHead.y pr.2.eHead.y,
                       min pr.2.sHead.z pr.2.eHead.z)
       | some m => some (min m.1 (min pr.2.sHead.y pr.2.eHead.y),
                         min m.2 (min pr.2.sHead.z pr.2.eHead.z)))
    else acc) none).map
    (fun m => (m.1 - len * (5 / 100), m.2 - height * (5 / 100)))

/-- `_is_in_head_region`. -/
def isInHeadRegion (hb : Option (ℚ × ℚ)) (v : V3) : Bool :=
  match hb with
  | none => false
  | some m => !decide (v.y < m.1) && !decide (v.z < m.2)

/-- Stable ascending insertion by the squared-distance key, embedding
`distances.sort(key=lambda x: x[1])` (Python's sort is stable). -/
def insPair (p : ℕ × ℚ) : List (ℕ × ℚ) → List (ℕ × ℚ)
  | [] => [p]
  | q :: qs => if p.2 ≤ q.2 then p :: q :: qs else q :: insPair p qs

def sortPairs : List (ℕ × ℚ) → List (ℕ × ℚ)
  | [] => []
  | p :: ps => insPair p (sortPairs ps)

/-- A weight row built from per-bone assignments
`weights[vertex, idx] = val` (the indices are pairwise distinct at every
call site, so first-match lookup is the dict). -/
def rowOfPairs : List (ℕ × ℚ) → ℕ → ℚ
  | [], _ => 0
  | p :: ps, b => if p.1 = b then p.2 else rowOfPairs ps b

def deltaRow (b : ℕ) : ℕ → ℚ := fun j => if j = b then 1 else 0

def zeroRow : ℕ → ℚ := fun _ => 0

/-- `(bone_idx, squared distance)` pairs over `enumerate(skeleton.bones)`
restricted by a keep predicate on the index. -/
def distPairsB (v : V3) (bones : List Bone) (keep : ℕ → Bool) :
    List (ℕ × ℚ) :=
  (bones.enum.filter (fun pr => keep pr.1)).map
    (fun pr => (pr.1, psd2 v pr.2.sHead pr.2.eHead))

/-- `(bone_idx, squared distance)` pairs over an explicit index list
(`for bone_idx in allowed_bones: bone = skeleton.bones[bone_idx]`). -/
def distPairsIdx (v : V3) (bones : List Bone) (idxs : List ℕ) :
    List (ℕ × ℚ) :=
  idxs.map (fun i =>
    (i, psd2 v (bones.getD i defBone).sHead (bones.getD i defBone).eHead))

def sortedTop (maxInf : ℕ) (cands : List (ℕ × ℚ)) : List (ℕ × ℚ) :=
  (sortPairs cands).take maxInf

/-- `min_d = max(top_bones[0][1], 0.001)`, squared. -/
def minD2 (top : List (ℕ × ℚ)) : ℚ := max (top.headD (0, 0)).2 (1 / 1000000)

/-- `w = 1.0 / ((dist / min_d) ** 2 + 0.01)` on squared distances. -/
def kernel2 (q m2 : ℚ) : ℚ := 1 / (q / m2 + 1 / 100)

/-- `w = 1.0 / ((dist / min_d) ** 1.5 + 0.01)`: `pw` stands for the
three-quarters power of the squared ratio (see the section comment). -/
def kernelS (pw : ℚ → ℚ) (q m2 : ℚ) : ℚ := 1 / (pw (q / m2) + 1 / 100)

def rawWeights (wf : ℚ → ℚ → ℚ) (top : List (ℕ × ℚ)) : List (ℕ × ℚ) :=
  top.map (fun p => (p.1, wf p.2 (minD2 top)))

def totalOf (bw : List (ℕ × ℚ)) : ℚ := (bw.map Prod.snd).sum

/-- `weights[vertex, idx] = w / total` over the kept bones. -/
def normRow (bw : List (ℕ × ℚ)) : ℕ → ℚ :=
  rowOfPairs (bw.map (fun p => (p.1, p.2 / totalOf bw)))

/-- The `min_dist/nearest_bone` scan of `_compute_normal_weight`
(strict improvement, first bone wins ties, `0` for an empty bone list). -/
def nearestBone (v : V3) (bones : List Bone) : ℕ :=
  (bones.enum.foldl (fun best pr =>
    let d := psd2 v pr.2.sHead pr.2.eHead
    match best.2 with
    | none => (pr.1, some d)
    | some m => if d < m then (pr.1, some d) else best)
    ((0 : ℕ), (none : Option ℚ))).1

/-- `_compute_normal_weight`. -/
def normalRow (maxInf : ℕ) (ε : ℚ) (bones : List Bone)
    (regions : List Region) (v : V3) : ℕ → ℚ :=
  let nb := nearestBone v bones
  let rg := regions.getD nb Region.spine
  let cands := distPairsIdx v bones (allowedBones rg regions nb)
  let top := sortedTop maxInf cands
  let bw := rawWeights kernel2 top
  if totalOf bw > ε then normRow bw
  else if !top.isEmpty then deltaRow (top.headD (0, 0)).1
  else deltaRow nb

/-- `_compute_shoulder_weight` (leaves the row at zero when no candidate
bones exist or the total is negligible). -/
def shoulderRow (pw : ℚ → ℚ) (maxInf : ℕ) (ε : ℚ) (bones : List Bone)
    (regions : List Region) (v : V3) : ℕ → ℚ :=
  let cands := distPairsB v bones (fun i =>
    let r := regions.getD i Region.spine
    r == Region.spine || r == Region.front_leg_L ||
      r == Region.front_leg_R || r == Region.neck)
  if cands.isEmpty then zeroRow
  else
    let top := sortedTop maxInf cands
    let bw := rawWeights (kernelS pw) top
    if totalOf bw > ε then normRow bw else zeroRow

/-- `_compute_weight_excluding_bones` (fall back to all bones when every
bone is excluded, return with the row at zero when there are no bones). -/
def exclRow (maxInf : ℕ) (ε : ℚ) (bones : List Bone) (keep : ℕ → Bool)
    (v : V3) : ℕ → ℚ :=
  let cands0 := distPairsB v bones keep
  let cands := if cands0.isEmpty then distPairsB v bones (fun _ => true)
    else cands0
  let top := sortedTop maxInf cands
  if top.isEmpty then zeroRow
  else
    let bw := rawWeights kernel2 top
    if totalOf bw > ε then normRow bw else deltaRow (top.headD (0, 0)).1

/-- `_validate_weights` on one row: rescale a row whose sum deviates from 1
by more than `1e-4` when the sum is non-negligible, otherwise set the entry
of bone 0 to 1. -/
def validateRow (ε : ℚ) (nbones : ℕ) (r : ℕ → ℚ) : ℕ → ℚ :=
  let s := ∑ b in Finset.range nbones, r b
  if 1 / 10000 < |s - 1| then
    (if ε < s then fun b => r b / s else fun b => if b = 0 then 1 else r b)
  else r

/-- The per-vertex dispatch of `compute_weights`: ankle, then shoulder,
then head region, then the normal case. -/
def vertexRow (pw : ℚ → ℚ) (maxInf : ℕ) (ε : ℚ) (bones : List Bone)
    (regions : List Region) (kb : KeyBones) (height : ℚ)
    (hb : Option (ℚ × ℚ)) (v : V3) : ℕ → ℚ :=
  match checkAnkleStrict kb height v with
  | some b => deltaRow b
  | none =>
    if isShoulderEnhanced kb v then shoulderRow pw maxInf ε bones regions v
    else if isInHeadRegion hb v then
      exclRow maxInf ε bones
        (fun i => !isExcludedRegion (regions.getD i Region.spine)) v
    else normalRow maxInf ε bones regions v

/-- `WeightCalculatorV15.compute_weights` (the `head_bone_chain` is
computed by the source but never read by `_compute_weight_excluding_bones`,
so it does not appear). -/
def computeWeights (pw : ℚ → ℚ) (maxInf : ℕ) (ε : ℚ) (mesh : List V3)
    (s : SkelState) : List (ℕ → ℚ) :=
  let bones := bonesOf s
  let regions := classifyAll bones
  let kb := keyBonesOf bones regions
  let hb := headBoundsOf bones regions (lengthOf mesh) (heightOf mesh)
  mesh.map (fun v =>
    validateRow ε bones.length
      (vertexRow pw maxInf ε bones regions kb (heightOf mesh) hb v))

/-- C9: `compute_weights` is a pure function of the mesh and skeleton: two
calls on identical inputs (and the same configuration) produce identical
weight matrices.  The embedding is total and reads no state outside its
arguments, mirroring the source, which consults neither global mutable
state nor randomness. -/
theorem c9_compute_weights_deterministic (pw : ℚ → ℚ) (maxInf : ℕ) (ε : ℚ)
    (mesh1 mesh2 : List V3) (s1 s2 : SkelState)
    (hm : mesh1 = mesh2) (hs : s1 = s2) :
    computeWeights pw maxInf ε mesh1 s1 = computeWeights pw maxInf ε mesh2 s2 := by
  rw [hm, hs]

/-- C9 witness: two runs on the same concrete mesh and skeleton. -/
theorem c9_compute_weights_deterministic_witness :
    computeWeights (fun r => r) 4 (1 / 1000000) cexMesh3 (buildHierarchyS cexJs3) =
      computeWeights (fun r => r) 4 (1 / 1000000) cexMesh3 (buildHierarchyS cexJs3) :=
  c9_compute_weights_deterministic (fun r => r) 4 (1 / 1000000) cexMesh3
    cexMesh3 (buildHierarchyS cexJs3) (buildHierarchyS cexJs3) rfl rfl

def keysOf (l : List (ℕ × ℚ)) : List ℕ := l.map Prod.fst

theorem insPair_perm (p : ℕ × ℚ) (l : List (ℕ × ℚ)) :
    (insPair p l).Perm (p :: l) := by
  induction l with
  | nil => exact List.Perm.refl _
  | cons q qs ih =>
    rw [insPair]
    by_cases h : p.2 ≤ q.2
    · rw [if_pos h]
    · rw [if_neg h]
      exact (List.Perm.cons q ih).trans (List.Perm.swap p q qs)

theorem sortPairs_perm (l : List (ℕ × ℚ)) : (sortPairs l).Perm l := by
  induction l with
  | nil => exact List.Perm.refl _
  | cons p ps ih => exact (insPair_perm p (sortPairs ps)).trans (List.Perm.cons p ih)

theorem mem_sortedTop (m : ℕ) (c : List (ℕ × ℚ)) (p : ℕ × ℚ)
    (h : p ∈ sortedTop m c) : p ∈ c :=
  (sortPairs_perm c).subset (List.take_subset _ _ h)

theorem keysOf_sortedTop_nodup (m : ℕ) (c : List (ℕ × ℚ))
    (h : (keysOf c).Nodup) : (keysOf (sortedTop m c)).Nodup := by
  have hperm : (keysOf (sortPairs c)).Perm (keysOf c) :=
    (sortPairs_perm c).map Prod.fst
  have hnd : (keysOf (sortPairs c)).Nodup := hperm.nodup_iff.mpr h
  exact List.Nodup.sublist ((List.take_sublist m (sortPairs c)).map Prod.fst) hnd

theorem enumFilterFst_sublist {α : Type _} (l : List α) (p : ℕ × α → Bool) :
    List.Sublist ((l.enum.filter p).map Prod.fst) (List.range l.length) := by
  have h := (List.filter_sublist (l := l.enum) (p := p)).map Prod.fst
  rwa [List.enum_map_fst] at h

theorem keysOf_distPairsB (v : V3) (bones : List Bone) (keep : ℕ → Bool) :
    List.Sublist (keysOf (distPairsB v bones keep)) (List.range bones.length) := by
  have h := enumFilterFst_sublist bones (fun pr => keep pr.1)
  rw [distPairsB, keysOf, List.map_map]
  exact h

theorem distPairsB_keys_nodup (v : V3) (bones : List Bone) (keep : ℕ → Bool) :
    (keysOf (distPairsB v bones keep)).Nodup :=
  List.Nodup.sublist (keysOf_distPairsB v bones keep) (List.nodup_range _)

theorem distPairsB_mem (v : V3) (bones : List Bone) (keep : ℕ → Bool)
    (p : ℕ × ℚ) (hp : p ∈ distPairsB v bones keep) :
    p.1 < bones.length ∧ 0 ≤ p.2 ∧ keep p.1 = true := by
  have hkey : p.1 ∈ keysOf (distPairsB v bones keep) :=
    List.mem_map_of_mem Prod.fst hp
  have hlt := List.mem_range.mp ((keysOf_distPairsB v bones keep).subset hkey)
  rw [distPairsB] at hp
  obtain ⟨pr, hpr, hpe⟩ := List.mem_map.mp hp
  refine ⟨hlt, ?_, ?_⟩
  · rw [← hpe]; exact psd2_nonneg _ _ _
  · have := (List.mem_filter.mp hpr).2
    have hfst : pr.1 = p.1 := by rw [← hpe]
    rwa [hfst] at this

theorem keysOf_distPairsIdx (v : V3) (bones : List Bone) (idxs : List ℕ) :
    keysOf (distPairsIdx v bones idxs) = idxs := by
  rw [distPairsIdx, keysOf, List.map_map]
  exact List.map_id idxs

theorem distPairsIdx_mem (v : V3) (bones : List Bone) (idxs : List ℕ)
    (p : ℕ × ℚ) (hp : p ∈ distPairsIdx v bones idxs) :
    p.1 ∈ idxs ∧ 0 ≤ p.2 := by
  rw [distPairsIdx] at hp
  obtain ⟨i, hi, hpe⟩ := List.mem_map.mp hp
  constructor
  · rw [← hpe]; exact hi
  · rw [← hpe]; exact psd2_nonneg _ _ _

theorem rowOfPairs_eq_zero (ps : List (ℕ × ℚ)) (b : ℕ)
    (hb : b ∉ keysOf ps) : rowOfPairs ps b = 0 := by
  induction ps with
  | nil => rfl
  | cons p ps ih =>
    simp only [keysOf, List.map_cons, List.mem_cons, not_or] at hb
    rw [rowOfPairs, if_neg (fun he => hb.1 he.symm)]
    exact ih (by simp only [keysOf]; exact hb.2)

theorem rowOfPairs_support (ps : List (ℕ × ℚ)) (b : ℕ)
    (h : rowOfPairs ps b ≠ 0) : b ∈ keysOf ps := by
  by_contra hb
  exact h (rowOfPairs_eq_zero ps b hb)

theorem rowOfPairs_nonneg (ps : List (ℕ × ℚ)) (h : ∀ p ∈ ps, 0 ≤ p.2)
    (b : ℕ) : 0 ≤ rowOfPairs ps b := by
  induction ps with
  | nil => exact le_refl 0
  | cons p ps ih =>
    rw [rowOfPairs]
    by_cases hb : p.1 = b
    · rw [if_pos hb]; exact h p (List.mem_cons_self _ _)
    · rw [if_neg hb]
      exact ih (fun q hq => h q (List.mem_cons_of_mem _ hq))

theorem sum_range_rowOfPairs (nb : ℕ) (ps : List (ℕ × ℚ))
    (hnd : (keysOf ps).Nodup) (hlt : ∀ p ∈ ps, p.1 < nb) :
    ∑ b in Finset.range nb, rowOfPairs ps b = (ps.map Prod.snd).sum := by
  induction ps with
  | nil => simp [rowOfPairs]
  | cons p ps ih =>
    have hnd' := List.nodup_cons.mp hnd
    have hp1 : p.1 < nb := hlt p (List.mem_cons_self _ _)
    have hzero : rowOfPairs ps p.1 = 0 := rowOfPairs_eq_zero ps p.1 hnd'.1
    have hstep : ∀ b, rowOfPairs (p :: ps) b =
        rowOfPairs ps b + (if b = p.1 then p.2 else 0) := by
      intro b
      rw [rowOfPairs]
      by_cases hb : p.1 = b
      · rw [if_pos hb, if_pos hb.symm, ← hb, hzero, zero_add]
      · rw [if_neg hb, if_neg (fun hh => hb hh.symm), add_zero]
    rw [Finset.sum_congr rfl (fun b _ => hstep b), Finset.sum_add_distrib,
      ih hnd'.2 (fun q hq => hlt q (List.mem_cons_of_mem _ hq)),
      Finset.sum_ite_eq' (Finset.range nb) p.1 (fun _ => p.2),
      if_pos (Finset.mem_range.mpr hp1), List.map_cons, List.sum_cons]
    ring

theorem card_support_rowOfPairs (nb : ℕ) (ps : List (ℕ × ℚ)) :
    ((Finset.range nb).filter (fun b => rowOfPairs ps b ≠ 0)).card ≤
      ps.length := by
  have hsub : (Finset.range nb).filter (fun b => rowOfPairs ps b ≠ 0) ⊆
      (keysOf ps).toFinset := by
    intro b hb
    rw [List.mem_toFinset]
    exact rowOfPairs_support ps b (Finset.mem_filter.mp hb).2
  calc ((Finset.range nb).filter (fun b => rowOfPairs ps b ≠ 0)).card
      ≤ (keysOf ps).toFinset.card := Finset.card_le_card hsub
    _ ≤ (keysOf ps).length := (keysOf ps).toFinset_card_le
    _ = ps.length := by rw [keysOf, List.length_map]

/-- The row invariants of the specification: nonnegative entries, row sum
exactly 1 over the bone columns, at most `max_influences` non-zero
entries. -/
def goodRow (nb maxInf : ℕ) (r : ℕ → ℚ) : Prop :=
  (∀ b, 0 ≤ r b) ∧ (∑ b in Finset.range nb, r b = 1) ∧
  ((Finset.range nb).filter (fun b => r b ≠ 0)).card ≤ maxInf

theorem deltaRow_good (nb maxInf b : ℕ) (hb : b < nb) (h1 : 1 ≤ maxInf) :
    goodRow nb maxInf (deltaRow b) := by
  refine ⟨?_, ?_, ?_⟩
  · intro j
    rw [deltaRow]
    by_cases h : j = b
    · rw [if_pos h]; norm_num
    · rw [if_neg h]
  · simp only [deltaRow]
    rw [Finset.sum_ite_eq' (Finset.range nb) b (fun _ => (1 : ℚ)),
      if_pos (Finset.mem_range.mpr hb)]
  · have hsub : (Finset.range nb).filter (fun j => deltaRow b j ≠ 0) ⊆ {b} := by
      intro j hj
      have hne := (Finset.mem_filter.mp hj).2
      rw [Finset.mem_singleton]
      by_contra h
      rw [deltaRow, if_neg h] at hne
      exact hne rfl
    calc ((Finset.range nb).filter (fun j => deltaRow b j ≠ 0)).card
        ≤ ({b} : Finset ℕ).card := Finset.card_le_card hsub
      _ = 1 := Finset.card_singleton b
      _ ≤ maxInf := h1

theorem keysOf_map_pair (l : List (ℕ × ℚ)) (f : ℕ × ℚ → ℚ) :
    keysOf (l.map (fun p => (p.1, f p))) = keysOf l := by
  rw [keysOf, keysOf, List.map_map]
  exact List.map_congr_left (fun a _ => rfl)

theorem sum_map_div_snd (l : List (ℕ × ℚ)) (t : ℚ) :
    ((l.map (fun p => (p.1, p.2 / t))).map Prod.snd).sum =
      (l.map Prod.snd).sum / t := by
  induction l with
  | nil => simp
  | cons p ps ih =>
    simp only [List.map_cons, List.sum_cons, ih]
    rw [add_div]

theorem keysOf_rawWeights (wf : ℚ → ℚ → ℚ) (top : List (ℕ × ℚ)) :
    keysOf (rawWeights wf top) = keysOf top :=
  keysOf_map_pair top (fun p => wf p.2 (minD2 top))

theorem minD2_pos (top : List (ℕ × ℚ)) : 0 < minD2 top :=
  lt_of_lt_of_le (by norm_num) (le_max_right _ _)

theorem kernel2_nonneg (q m2 : ℚ) (hq : 0 ≤ q) (hm : 0 < m2) :
    0 ≤ kernel2 q m2 := by
  rw [kernel2]
  have hden : 0 < q / m2 + 1 / 100 := by positivity
  exact le_of_lt (one_div_pos.mpr hden)

theorem kernelS_nonneg (pw : ℚ → ℚ) (hpw : ∀ r, 0 ≤ r → 0 ≤ pw r)
    (q m2 : ℚ) (hq : 0 ≤ q) (hm : 0 < m2) : 0 ≤ kernelS pw q m2 := by
  rw [kernelS]
  have hden : 0 < pw (q / m2) + 1 / 100 := by
    have := hpw (q / m2) (div_nonneg hq hm.le)
    linarith
  exact le_of_lt (one_div_pos.mpr hden)

theorem normRow_good (nb maxInf : ℕ) (bw : List (ℕ × ℚ))
    (hnd : (keysOf bw).Nodup) (hlt : ∀ p ∈ bw, p.1 < nb)
    (hpos : ∀ p ∈ bw, 0 ≤ p.2) (hlen : bw.length ≤ maxInf)
    (ht : 0 < totalOf bw) :
    goodRow nb maxInf (normRow bw) := by
  have hkeys : keysOf (bw.map (fun p => (p.1, p.2 / totalOf bw))) = keysOf bw :=
    keysOf_map_pair bw (fun p => p.2 / totalOf bw)
  have hlt' : ∀ p ∈ bw.map (fun p => (p.1, p.2 / totalOf bw)), p.1 < nb := by
    intro p hp
    obtain ⟨q, hq, hqe⟩ := List.mem_map.mp hp
    rw [← hqe]
    exact hlt q hq
  refine ⟨?_, ?_, ?_⟩
  · apply rowOfPairs_nonneg
    intro p hp
    obtain ⟨q, hq, hqe⟩ := List.mem_map.mp hp
    rw [← hqe]
    exact div_nonneg (hpos q hq) ht.le
  · rw [normRow, sum_range_rowOfPairs nb _ (hkeys ▸ hnd) hlt',
      sum_map_div_snd, totalOf, div_self]
    rw [← totalOf]
    exact ht.ne'
  · rw [normRow]
    calc ((Finset.range nb).filter _).card
        ≤ (bw.map (fun p => (p.1, p.2 / totalOf bw))).length :=
          card_support_rowOfPairs nb _
      _ = bw.length := List.length_map _ _
      _ ≤ maxInf := hlen

theorem weightBranch_good (nb maxInf : ℕ) (ε : ℚ) (hε : 0 ≤ ε)
    (cands : List (ℕ × ℚ)) (wf : ℚ → ℚ → ℚ)
    (hnd : (keysOf cands).Nodup) (hlt : ∀ p ∈ cands, p.1 < nb)
    (hwf : ∀ q m2, 0 ≤ q → 0 < m2 → 0 ≤ wf q m2)
    (hqpos : ∀ p ∈ cands, 0 ≤ p.2)
    (htot : totalOf (rawWeights wf (sortedTop maxInf cands)) > ε) :
    goodRow nb maxInf (normRow (rawWeights wf (sortedTop maxInf cands))) := by
  apply normRow_good
  · rw [keysOf_rawWeights]
    exact keysOf_sortedTop_nodup maxInf cands hnd
  · intro p hp
    obtain ⟨q, hq, hqe⟩ := List.mem_map.mp hp
    rw [← hqe]
    exact hlt q (mem_sortedTop maxInf cands q hq)
  · intro p hp
    obtain ⟨q, hq, hqe⟩ := List.mem_map.mp hp
    rw [← hqe]
    exact hwf q.2 _ (hqpos q (mem_sortedTop maxInf cands q hq)) (minD2_pos _)
  · rw [rawWeights, List.length_map, sortedTop]
    exact List.length_take_le maxInf (sortPairs cands)
  · exact lt_of_le_of_lt hε htot

theorem mem_enum_fst_lt {α : Type _} (l : List α) (pr : ℕ × α)
    (h : pr ∈ l.enum) : pr.1 < l.length := by
  have h2 := List.mem_enum_iff_getElem?.mp h
  exact (List.getElem?_eq_some.mp h2).1

theorem mem_enum_getD {α : Type _} (l : List α) (d : α) (pr : ℕ × α)
    (h : pr ∈ l.enum) : l.getD pr.1 d = pr.2 := by
  have h2 := List.mem_enum_iff_getElem?.mp h
  rw [List.getD_eq_getElem?_getD, h2]
  rfl

theorem foldl_inv {α β : Type _} (step : β → α → β) (P : β → Prop)
    (l : List α) : ∀ (st : β), P st →
    (∀ b a, a ∈ l → P b → P (step b a)) → P (l.foldl step st) := by
  induction l with
  | nil => intro st h0 _; exact h0
  | cons a rest ih =>
    intro st h0 hstep
    rw [List.foldl_cons]
    exact ih (step st a) (hstep st a (List.mem_cons_self _ _) h0)
      (fun b x hx hb => hstep b x (List.mem_cons_of_mem _ hx) hb)

theorem nearestBone_lt (v : V3) (bones : List Bone) (h : bones ≠ []) :
    nearestBone v bones < bones.length := by
  have hn : 0 < bones.length := List.length_pos.mpr h
  rw [nearestBone]
  have key := foldl_inv
    (fun (best : ℕ × Option ℚ) (pr : ℕ × Bone) =>
      let d := psd2 v pr.2.sHead pr.2.eHead
      match best.2 with
      | none => (pr.1, some d)
      | some m => if d < m then (pr.1, some d) else best)
    (fun st => st.1 < bones.length ∨ st.1 = 0)
    bones.enum ((0 : ℕ), (none : Option ℚ)) (Or.inr rfl)
    (by
      intro b pr hpr hb
      have hlt := mem_enum_fst_lt bones pr hpr
      dsimp only
      cases b.2 with
      | none => exact Or.inl hlt
      | some m =>
        by_cases hd : psd2 v pr.2.sHead pr.2.eHead < m
        · simp only [if_pos hd]; exact Or.inl hlt
        · simp only [if_neg hd]; exact hb)
  rcases key with h1 | h2
  · exact h1
  · rw [h2]; exact hn

theorem headD_mem {α : Type _} (l : List α) (d : α) (h : l ≠ []) :
    l.headD d ∈ l := by
  cases l with
  | nil => exact absurd rfl h
  | cons a t => exact List.mem_cons_self a t

theorem allowedBones_nodup (rg : Region) (regions : List Region)
    (nearest : ℕ) : (allowedBones rg regions nearest).Nodup := by
  rw [allowedBones]
  by_cases he : ((regions.enum.filter (fun pr => allowedFor rg pr.2)).map
      (fun pr => pr.1)).isEmpty
  · simp only [he, if_true]
    exact List.nodup_singleton nearest
  · simp only [he, if_false]
    exact List.Nodup.sublist (enumFilterFst_sublist regions _)
      (List.nodup_range _)

theorem allowedBones_mem (rg : Region) (regions : List Region) (nearest i : ℕ)
    (hi : i ∈ allowedBones rg regions nearest) :
    (i < regions.length ∧ allowedFor rg (regions.getD i Region.spine) = true) ∨
      i = nearest := by
  rw [allowedBones] at hi
  by_cases he : ((regions.enum.filter (fun pr => allowedFor rg pr.2)).map
      (fun pr => pr.1)).isEmpty
  · simp only [he, if_true] at hi
    exact Or.inr (List.mem_singleton.mp hi)
  · simp only [he, if_false] at hi
    left
    obtain ⟨pr, hpr, hpe⟩ := List.mem_map.mp hi
    have hmem := (List.mem_filter.mp hpr).1
    have hall := (List.mem_filter.mp hpr).2
    have hlt := mem_enum_fst_lt regions pr hmem
    have hget := mem_enum_getD regions Region.spine pr hmem
    rw [← hpe]
    exact ⟨hlt, by rw [hget]; exact hall⟩

theorem normalRow_good (maxInf : ℕ) (ε : ℚ) (bones : List Bone)
    (regions : List Region) (v : V3) (h1 : 1 ≤ maxInf) (hε : 0 ≤ ε)
    (hbne : bones ≠ []) (hreg : regions.length = bones.length) :
    goodRow bones.length maxInf (normalRow maxInf ε bones regions v) := by
  have hn : nearestBone v bones < bones.length := nearestBone_lt v bones hbne
  have hallow : ∀ i ∈ allowedBones
      (regions.getD (nearestBone v bones) Region.spine) regions
      (nearestBone v bones), i < bones.length := by
    intro i hi
    rcases allowedBones_mem _ regions _ i hi with hl | hr
    · rw [← hreg]; exact hl.1
    · rw [hr]; exact hn
  have hkeys : (keysOf (distPairsIdx v bones (allowedBones
      (regions.getD (nearestBone v bones) Region.spine) regions
      (nearestBone v bones)))).Nodup := by
    rw [keysOf_distPairsIdx]
    exact allowedBones_nodup _ regions _
  have hlt : ∀ p ∈ distPairsIdx v bones (allowedBones
      (regions.getD (nearestBone v bones) Region.spine) regions
      (nearestBone v bones)), p.1 < bones.length := by
    intro p hp
    exact hallow p.1 (distPairsIdx_mem v bones _ p hp).1
  have hqpos : ∀ p ∈ distPairsIdx v bones (allowedBones
      (regions.getD (nearestBone v bones) Region.spine) regions
      (nearestBone v bones)), 0 ≤ p.2 := by
    intro p hp
    exact (distPairsIdx_mem v bones _ p hp).2
  simp only [normalRow]
  split
  · next htot =>
      exact weightBranch_good bones.length maxInf ε hε _ kernel2 hkeys hlt
        kernel2_nonneg hqpos htot
  · next htot =>
      split
      · next hne =>
          apply deltaRow_good _ _ _ _ h1
          have hne2 : sortedTop maxInf (distPairsIdx v bones (allowedBones
              (regions.getD (nearestBone v bones) Region.spine) regions
              (nearestBone v bones))) ≠ [] := by
            intro heq
            rw [heq] at hne
            simp at hne
          have hmem := headD_mem _ ((0 : ℕ), (0 : ℚ)) hne2
          exact hlt _ (mem_sortedTop _ _ _ hmem)
      · next hne => exact deltaRow_good _ _ _ hn h1


theorem sortedTop_ne_nil (maxInf : ℕ) (cands : List (ℕ × ℚ))
    (h1 : 1 ≤ maxInf) (hc : cands ≠ []) : sortedTop maxInf cands ≠ [] := by
  rw [sortedTop]
  intro heq
  have hlen := congrArg List.length heq
  rw [List.length_take, (sortPairs_perm cands).length_eq] at hlen
  simp only [List.length_nil] at hlen
  have hpos := List.length_pos.mpr hc
  omega

/-- The common tail of `_compute_weight_excluding_bones` as a function of
the candidate list: once candidates are nonempty the result row is good. -/
theorem exclBranch_good (nb maxInf : ℕ) (ε : ℚ) (hε : 0 ≤ ε)
    (h1 : 1 ≤ maxInf) (cands : List (ℕ × ℚ)) (hnd : (keysOf cands).Nodup)
    (hlt : ∀ p ∈ cands, p.1 < nb) (hqpos : ∀ p ∈ cands, 0 ≤ p.2)
    (hcne : cands ≠ []) :
    goodRow nb maxInf (if (sortedTop maxInf cands).isEmpty then zeroRow
      else if totalOf (rawWeights kernel2 (sortedTop maxInf cands)) > ε then
        normRow (rawWeights kernel2 (sortedTop maxInf cands))
      else deltaRow ((sortedTop maxInf cands).headD (0, 0)).1) := by
  have htne := sortedTop_ne_nil maxInf cands h1 hcne
  rw [if_neg (mt List.isEmpty_iff.mp htne)]
  split
  · next htot =>
      exact weightBranch_good nb maxInf ε hε cands kernel2 hnd hlt
        kernel2_nonneg hqpos htot
  · next =>
      apply deltaRow_good nb maxInf _ _ h1
      exact hlt _ (mem_sortedTop _ _ _ (headD_mem _ ((0 : ℕ), (0 : ℚ)) htne))

theorem exclRow_good (maxInf : ℕ) (ε : ℚ) (bones : List Bone)
    (keep : ℕ → Bool) (v : V3) (h1 : 1 ≤ maxInf) (hε : 0 ≤ ε)
    (hbne : bones ≠ []) :
    goodRow bones.length maxInf (exclRow maxInf ε bones keep v) := by
  have hallne : distPairsB v bones (fun _ => true) ≠ [] := by
    have hlen : (distPairsB v bones (fun _ => true)).length = bones.length := by
      rw [distPairsB, List.length_map, List.filter_eq_self.mpr
        (fun a _ => rfl), List.enum_length]
    intro hc
    rw [hc] at hlen
    exact hbne (List.length_eq_zero.mp hlen.symm)
  have hcne : (if (distPairsB v bones keep).isEmpty then
      distPairsB v bones (fun _ => true) else distPairsB v bones keep) ≠ [] := by
    by_cases h0 : (distPairsB v bones keep).isEmpty
    · rw [if_pos h0]; exact hallne
    · rw [if_neg h0]; exact mt List.isEmpty_iff.mpr h0
  have hknd : (keysOf (if (distPairsB v bones keep).isEmpty then
      distPairsB v bones (fun _ => true) else distPairsB v bones keep)).Nodup := by
    by_cases h0 : (distPairsB v bones keep).isEmpty
    · rw [if_pos h0]; exact distPairsB_keys_nodup _ _ _
    · rw [if_neg h0]; exact distPairsB_keys_nodup _ _ _
  have hlt : ∀ p ∈ (if (distPairsB v bones keep).isEmpty then
      distPairsB v bones (fun _ => true) else distPairsB v bones keep),
      p.1 < bones.length := by
    by_cases h0 : (distPairsB v bones keep).isEmpty
    · rw [if_pos h0]; exact fun p hp => (distPairsB_mem _ _ _ p hp).1
    · rw [if_neg h0]; exact fun p hp => (distPairsB_mem _ _ _ p hp).1
  have hqpos : ∀ p ∈ (if (distPairsB v bones keep).isEmpty then
      distPairsB v bones (fun _ => true) else distPairsB v bones keep),
      0 ≤ p.2 := by
    by_cases h0 : (distPairsB v bones keep).isEmpty
    · rw [if_pos h0]; exact fun p hp => (distPairsB_mem _ _ _ p hp).2.1
    · rw [if_neg h0]; exact fun p hp => (distPairsB_mem _ _ _ p hp).2.1
  show goodRow bones.length maxInf (exclRow maxInf ε bones keep v)
  rw [exclRow]
  exact exclBranch_good bones.length maxInf ε hε h1 _ hknd hlt hqpos hcne

theorem shoulderRow_cases (pw : ℚ → ℚ) (hpw : ∀ r, 0 ≤ r → 0 ≤ pw r)
    (maxInf : ℕ) (ε : ℚ) (bones : List Bone) (regions : List Region) (v : V3)
    (hε : 0 ≤ ε) :
    goodRow bones.length maxInf (shoulderRow pw maxInf ε bones regions v) ∨
    shoulderRow pw maxInf ε bones regions v = zeroRow := by
  simp only [shoulderRow]
  split
  · next => exact Or.inr rfl
  · next hcne =>
      split
      · next htot =>
          left
          exact weightBranch_good bones.length maxInf ε hε _ (kernelS pw)
            (distPairsB_keys_nodup _ _ _)
            (fun p hp => (distPairsB_mem _ _ _ p hp).1)
            (kernelS_nonneg pw hpw)
            (fun p hp => (distPairsB_mem _ _ _ p hp).2.1) htot
      · next => exact Or.inr rfl

theorem validateRow_of_sum_one (ε : ℚ) (nb : ℕ) (r : ℕ → ℚ)
    (hsum : ∑ b in Finset.range nb, r b = 1) : validateRow ε nb r = r := by
  simp only [validateRow, hsum]
  norm_num

theorem validateRow_zero (ε : ℚ) (nb : ℕ) (hε : 0 ≤ ε) :
    validateRow ε nb zeroRow = deltaRow 0 := by
  have hs : ∑ b in Finset.range nb, zeroRow b = 0 := by
    simp [zeroRow]
  simp only [validateRow, hs]
  rw [if_pos (by norm_num), if_neg (by linarith)]
  funext b
  rw [deltaRow]
  by_cases h : b = 0
  · rw [if_pos h, if_pos h]
  · rw [if_neg h, if_neg h]; rfl

theorem validateRow_good (ε : ℚ) (nb maxInf : ℕ) (r : ℕ → ℚ) (hε : 0 ≤ ε)
    (h1 : 1 ≤ maxInf) (hnb : 0 < nb)
    (h : goodRow nb maxInf r ∨ r = zeroRow) :
    goodRow nb maxInf (validateRow ε nb r) := by
  cases h with
  | inl hg => rw [validateRow_of_sum_one ε nb r hg.2.1]; exact hg
  | inr hz => rw [hz, validateRow_zero ε nb hε]; exact deltaRow_good nb maxInf 0 hnb h1

theorem mem_upsertAnkle (rg : Region) (v : ℕ × V3)
    (l : List (Region × ℕ × V3)) (e : Region × ℕ × V3)
    (he : e ∈ upsertAnkle rg v l) : e = (rg, v) ∨ e ∈ l := by
  induction l with
  | nil =>
    rw [upsertAnkle] at he
    simp only [List.mem_singleton] at he
    exact Or.inl he
  | cons a t ih =>
    rw [upsertAnkle] at he
    by_cases h : a.1 = rg
    · simp only [if_pos h, List.mem_cons] at he
      cases he with
      | inl h1 => exact Or.inl h1
      | inr h2 => exact Or.inr (List.mem_cons_of_mem a h2)
    · simp only [if_neg h, List.mem_cons] at he
      cases he with
      | inl h1 => exact Or.inr (by rw [h1]; exact List.mem_cons_self a t)
      | inr h2 =>
        cases ih h2 with
        | inl h3 => exact Or.inl h3
        | inr h4 => exact Or.inr (List.mem_cons_of_mem a h4)

theorem kbStepHead_ankles (regions : List Region) (i : ℕ) (b : Bone)
    (kb : KeyBones) : (kbStepHead regions i b kb).ankles = kb.ankles := by
  rw [kbStepHead]
  split <;> rfl

theorem kbStepChest_ankles (i : ℕ) (b : Bone) (kb : KeyBones) :
    (kbStepChest i b kb).ankles = kb.ankles := by
  rw [kbStepChest]
  split <;> rfl

theorem kbStepAnkle_ankles_mem (regions : List Region) (i : ℕ) (b : Bone)
    (kb : KeyBones) (e : Region × ℕ × V3)
    (he : e ∈ (kbStepAnkle regions i b kb).ankles) :
    e.2.1 = i ∨ e ∈ kb.ankles := by
  rw [kbStepAnkle] at he
  by_cases h : isAnkleRegion (regions.getD i Region.spine) = true
  · simp only [if_pos h] at he
    cases mem_upsertAnkle _ _ _ e he with
    | inl h1 => left; rw [h1]
    | inr h2 => exact Or.inr h2
  · simp only [if_neg h] at he
    exact Or.inr he

theorem kbStep_ankles_mem (regions : List Region) (i : ℕ) (b : Bone)
    (kb : KeyBones) (e : Region × ℕ × V3)
    (he : e ∈ (kbStep regions i b kb).ankles) :
    e.2.1 = i ∨ e ∈ kb.ankles := by
  rw [kbStep] at he
  cases kbStepAnkle_ankles_mem regions i b _ e he with
  | inl h1 => exact Or.inl h1
  | inr h2 =>
    rw [kbStepChest_ankles, kbStepHead_ankles] at h2
    exact Or.inr h2

theorem keyBonesGo_ankles_mem (regions : List Region) (l : List Bone) :
    ∀ (i : ℕ) (kb : KeyBones) (e : Region × ℕ × V3),
    e ∈ (keyBonesGo regions i l kb).ankles →
    e ∈ kb.ankles ∨ (i ≤ e.2.1 ∧ e.2.1 < i + l.length) := by
  induction l with
  | nil => intro i kb e he; exact Or.inl he
  | cons b rest ih =>
    intro i kb e he
    rw [keyBonesGo] at he
    cases ih (i + 1) (kbStep regions i b kb) e he with
    | inl h1 =>
      cases kbStep_ankles_mem regions i b kb e h1 with
      | inl h2 =>
        right
        rw [h2]
        simp only [List.length_cons]
        omega
      | inr h3 => exact Or.inl h3
    | inr h2 =>
      right
      simp only [List.length_cons]
      omega

theorem ankleStep_cases (h : ℚ) (v : V3) (best : Option (ℕ × ℚ))
    (e : Region × ℕ × V3) :
    ankleStep h v best e = best ∨ ∃ d, ankleStep h v best e = some (e.2.1, d) := by
  simp only [ankleStep]
  split
  · exact Or.inl rfl
  · split
    · cases best with
      | none => exact Or.inr ⟨_, rfl⟩
      | some bd =>
        dsimp only
        by_cases hlt : (v.x - e.2.2.x) ^ 2 + (v.y - e.2.2.y) ^ 2 +
            (v.z - e.2.2.z) ^ 2 < bd.2
        · right
          exact ⟨_, by rw [if_pos hlt]⟩
        · left
          rw [if_neg hlt]
    · exact Or.inl rfl

theorem ankleFold_mem (h : ℚ) (v : V3) (l : List (Region × ℕ × V3)) :
    ∀ (best : Option (ℕ × ℚ)) (p : ℕ × ℚ),
    l.foldl (ankleStep h v) best = some p →
    best = some p ∨ ∃ e ∈ l, p.1 = e.2.1 := by
  induction l with
  | nil => intro best p hp; exact Or.inl hp
  | cons e rest ih =>
    intro best p hp
    rw [List.foldl_cons] at hp
    cases ih (ankleStep h v best e) p hp with
    | inl h1 =>
      cases ankleStep_cases h v best e with
      | inl h2 => rw [h2] at h1; exact Or.inl h1
      | inr h2 =>
        obtain ⟨d, hd⟩ := h2
        rw [hd] at h1
        injection h1 with h3
        right
        exact ⟨e, List.mem_cons_self e rest, by rw [← h3]⟩
    | inr h2 =>
      obtain ⟨e2, he2, hp2⟩ := h2
      exact Or.inr ⟨e2, List.mem_cons_of_mem e he2, hp2⟩

/-- Every index returned by `_check_ankle_strict` is the bone index of some
ankle entry collected by `_get_key_bones`, hence a valid bone index. -/
theorem checkAnkleStrict_lt (bones : List Bone) (regions : List Region)
    (height : ℚ) (v : V3) (b : ℕ)
    (hb : checkAnkleStrict (keyBonesOf bones regions) height v = some b) :
    b < bones.length := by
  rw [checkAnkleStrict] at hb
  obtain ⟨p, hp, hpe⟩ := Option.map_eq_some'.mp hb
  cases ankleFold_mem height v (keyBonesOf bones regions).ankles none p hp with
  | inl h1 => exact absurd h1 (by simp)
  | inr h2 =>
    obtain ⟨e, he, hpe2⟩ := h2
    rw [keyBonesOf] at he
    cases keyBonesGo_ankles_mem regions bones 0 kbInit e he with
    | inl h3 => exact absurd h3 (by simp [kbInit])
    | inr h3 =>
      rw [← hpe, hpe2]
      omega

theorem classifyAll_length (bones : List Bone) :
    (classifyAll bones).length = bones.length := by
  rw [classifyAll, List.length_map]

theorem getD_map_lt {α β : Type _} (f : α → β) (l : List α) (i : ℕ) (d : β)
    (d0 : α) (h : i < l.length) : (l.map f).getD i d = f (l.getD i d0) := by
  rw [List.getD_eq_getElem?_getD, List.getElem?_map,
    List.getElem?_eq_getElem h, List.getD_eq_getElem?_getD,
    List.getElem?_eq_getElem h]
  rfl

/-- Row `i` of `compute_weights` for an in-range vertex index: the per-vertex
dispatch result passed through `_validate_weights`. -/
theorem computeWeights_getD (pw : ℚ → ℚ) (maxInf : ℕ) (ε : ℚ)
    (mesh : List V3) (s : SkelState) (i : ℕ) (hi : i < mesh.length) :
    (computeWeights pw maxInf ε mesh s).getD i zeroRow =
      validateRow ε (bonesOf s).length
        (vertexRow pw maxInf ε (bonesOf s) (classifyAll (bonesOf s))
          (keyBonesOf (bonesOf s) (classifyAll (bonesOf s))) (heightOf mesh)
          (headBoundsOf (bonesOf s) (classifyAll (bonesOf s)) (lengthOf mesh)
            (heightOf mesh))
          (mesh.getD i 0)) := by
  simp only [computeWeights]
  exact getD_map_lt _ mesh i zeroRow 0 hi

/-- Each dispatch branch of `compute_weights` yields either a good row or
the all-zero row (the latter only from the shoulder branch). -/
theorem vertexRow_cases (pw : ℚ → ℚ) (hpw : ∀ r, 0 ≤ r → 0 ≤ pw r)
    (maxInf : ℕ) (ε : ℚ) (bones : List Bone) (height : ℚ)
    (hb : Option (ℚ × ℚ)) (v : V3) (h1 : 1 ≤ maxInf) (hε : 0 ≤ ε)
    (hbne : bones ≠ []) :
    goodRow bones.length maxInf
      (vertexRow pw maxInf ε bones (classifyAll bones)
        (keyBonesOf bones (classifyAll bones)) height hb v) ∨
    vertexRow pw maxInf ε bones (classifyAll bones)
        (keyBonesOf bones (classifyAll bones)) height hb v = zeroRow := by
  rw [vertexRow]
  cases hca : checkAnkleStrict (keyBonesOf bones (classifyAll bones)) height v with
  | some b =>
    left
    exact deltaRow_good _ _ b
      (checkAnkleStrict_lt bones (classifyAll bones) height v b hca) h1
  | none =>
    by_cases hsh : isShoulderEnhanced (keyBonesOf bones (classifyAll bones)) v = true
    · rw [if_pos hsh]
      exact shoulderRow_cases pw hpw maxInf ε bones (classifyAll bones) v hε
    · rw [if_neg hsh]
      by_cases hhr : isInHeadRegion hb v = true
      · rw [if_pos hhr]
        left
        exact exclRow_good maxInf ε bones _ v h1 hε hbne
      · rw [if_neg hhr]
        left
        exact normalRow_good maxInf ε bones (classifyAll bones) v h1 hε hbne
          (classifyAll_length bones)

/-- Every in-range row of `compute_weights` satisfies the row invariant. -/
theorem computeWeights_row_good (pw : ℚ → ℚ) (hpw : ∀ r, 0 ≤ r → 0 ≤ pw r)
    (maxInf : ℕ) (ε : ℚ) (mesh : List V3) (s : SkelState)
    (h1 : 1 ≤ maxInf) (hε : 0 ≤ ε) (hbne : bonesOf s ≠ [])
    (i : ℕ) (hi : i < mesh.length) :
    goodRow (bonesOf s).length maxInf
      ((computeWeights pw maxInf ε mesh s).getD i zeroRow) := by
  rw [computeWeights_getD pw maxInf ε mesh s i hi]
  exact validateRow_good ε _ maxInf _ hε h1 (List.length_pos.mpr hbne)
    (vertexRow_cases pw hpw maxInf ε (bonesOf s) (heightOf mesh) _
      (mesh.getD i 0) h1 hε hbne)

/-- C2: for every mesh and every skeleton with at least one bone, every
in-range row of the matrix returned by `compute_weights` has all entries
non-negative, sums to 1 within tolerance `1e-4`, contains at least one
non-zero entry, and has at most `max_influences` non-zero entries.  The
hypotheses record that the abstracted shoulder power kernel is non-negative
on non-negative inputs (true of `x ** 0.75`), that `max_influences ≥ 1` and
that the negligibility threshold is non-negative (all hold for the source's
constants `4` and `1e-6`). -/
theorem c2_weight_rows_valid (pw : ℚ → ℚ) (maxInf : ℕ) (ε : ℚ)
    (mesh : List V3) (s : SkelState)
    (hpw : ∀ r, 0 ≤ r → 0 ≤ pw r) (h1 : 1 ≤ maxInf) (hε : 0 ≤ ε)
    (hbne : bonesOf s ≠ []) (i : ℕ) (hi : i < mesh.length) :
    (∀ b, 0 ≤ (computeWeights pw maxInf ε mesh s).getD i zeroRow b) ∧
    |(∑ b in Finset.range (bonesOf s).length,
        (computeWeights pw maxInf ε mesh s).getD i zeroRow b) - 1| ≤ 1 / 10000 ∧
    (∃ b, b < (bonesOf s).length ∧
      (computeWeights pw maxInf ε mesh s).getD i zeroRow b ≠ 0) ∧
    ((Finset.range (bonesOf s).length).filter
      (fun b => (computeWeights pw maxInf ε mesh s).getD i zeroRow b ≠ 0)).card
      ≤ maxInf := by
  obtain ⟨hnn, hsum, hcard⟩ :=
    computeWeights_row_good pw hpw maxInf ε mesh s h1 hε hbne i hi
  refine ⟨hnn, ?_, ?_, hcard⟩
  · rw [hsum]; norm_num
  · have hne : ∑ b in Finset.range (bonesOf s).length,
        (computeWeights pw maxInf ε mesh s).getD i zeroRow b ≠ 0 := by
      rw [hsum]; norm_num
    obtain ⟨b, hbm, hbne2⟩ := Finset.exists_ne_zero_of_sum_ne_zero hne
    exact ⟨b, Finset.mem_range.mp hbm, hbne2⟩

/-- C2 witness: the two-joint, one-bone skeleton and one-vertex mesh, at the
source's default configuration (`max_influences = 4`, threshold `1e-6`, and
the identity standing in for the shoulder power kernel). -/
theorem c2_weight_rows_valid_witness :
    bonesOf (buildHierarchyS cexJs3) ≠ [] ∧ 0 < cexMesh3.length ∧
    ((∀ b, 0 ≤ (computeWeights (fun r => r) 4 (1 / 1000000) cexMesh3
        (buildHierarchyS cexJs3)).getD 0 zeroRow b) ∧
     |(∑ b in Finset.range (bonesOf (buildHierarchyS cexJs3)).length,
        (computeWeights (fun r => r) 4 (1 / 1000000) cexMesh3
          (buildHierarchyS cexJs3)).getD 0 zeroRow b) - 1| ≤ 1 / 10000 ∧
     (∃ b, b < (bonesOf (buildHierarchyS cexJs3)).length ∧
        (computeWeights (fun r => r) 4 (1 / 1000000) cexMesh3
          (buildHierarchyS cexJs3)).getD 0 zeroRow b ≠ 0) ∧
     ((Finset.range (bonesOf (buildHierarchyS cexJs3)).length).filter
        (fun b => (computeWeights (fun r => r) 4 (1 / 1000000) cexMesh3
          (buildHierarchyS cexJs3)).getD 0 zeroRow b ≠ 0)).card ≤ 4) := by
  have hbne : bonesOf (buildHierarchyS cexJs3) ≠ [] := by
    intro hcon
    have hl : (bonesOf (buildHierarchyS cexJs3)).length = 1 := rfl
    rw [hcon] at hl
    exact absurd hl (by decide)
  exact ⟨hbne, by decide,
    c2_weight_rows_valid (fun r => r) 4 (1 / 1000000) cexMesh3
      (buildHierarchyS cexJs3) (fun r h => h) (by norm_num) (by norm_num)
      hbne 0 (by decide)⟩

/-- C6: whenever `_check_ankle_strict` matches a vertex to an ankle bone
(matching left/right side, below the ankle height plus the 2%-of-height
tolerance, within the 4%-of-height radius of the closest such ankle),
`compute_weights` gives that vertex weight exactly 1 on that ankle bone and
exactly 0 on every other bone: the validation pass leaves the snapped row
untouched because it already sums to 1. -/
theorem c6_ankle_exclusive (pw : ℚ → ℚ) (maxInf : ℕ) (ε : ℚ)
    (mesh : List V3) (s : SkelState) (i : ℕ) (hi : i < mesh.length) (b : ℕ)
    (hb : checkAnkleStrict (keyBonesOf (bonesOf s) (classifyAll (bonesOf s)))
        (heightOf mesh) (mesh.getD i 0) = some b) :
    (computeWeights pw maxInf ε mesh s).getD i zeroRow b = 1 ∧
    ∀ j, j ≠ b → (computeWeights pw maxInf ε mesh s).getD i zeroRow j = 0 := by
  have hlt := checkAnkleStrict_lt (bonesOf s) (classifyAll (bonesOf s))
    (heightOf mesh) (mesh.getD i 0) b hb
  rw [computeWeights_getD pw maxInf ε mesh s i hi]
  have hv : vertexRow pw maxInf ε (bonesOf s) (classifyAll (bonesOf s))
      (keyBonesOf (bonesOf s) (classifyAll (bonesOf s))) (heightOf mesh)
      (headBoundsOf (bonesOf s) (classifyAll (bonesOf s)) (lengthOf mesh)
        (heightOf mesh)) (mesh.getD i 0) = deltaRow b := by
    rw [vertexRow, hb]
  rw [hv, validateRow_of_sum_one ε (bonesOf s).length (deltaRow b)
    (deltaRow_good (bonesOf s).length 1 b hlt (le_refl 1)).2.1]
  constructor
  · rw [deltaRow, if_pos rfl]
  · intro j hj
    rw [deltaRow, if_neg hj]

def nmPelvis : List Char := "RigPelvis".data

def nmLFLeg : List Char := "RigLFLeg".data

def nmLFAnkle : List Char := "RigLFLegAnkle".data

def nmTail6 : List Char := "RigTail".data

def cexAnkleHead : V3 := ⟨3 / 10, -(1 / 10), 1 / 20⟩

/-- A quadruped skeleton fragment: pelvis root, a left front leg whose ankle
joint sits at `(0.3, -0.1, 0.05)` (the spec's example position), and a tail
joint, named so the classifier tags the bones `front_leg_L`, `ankle_FL` and
`tail`. -/
def cexJs6 : List JointSpec :=
  [{ name := nmPelvis, idx := 0, head := ⟨0, 0, 1 / 2⟩, tail := 0,
     parentName := none },
   { name := nmLFLeg, idx := 1, head := ⟨3 / 10, -(1 / 10), 3 / 10⟩, tail := 0,
     parentName := some nmPelvis },
   { name := nmLFAnkle, idx := 2, head := cexAnkleHead, tail := 0,
     parentName := some nmLFLeg },
   { name := nmTail6, idx := 3, head := ⟨0, 2 / 5, 1 / 2⟩, tail := 0,
     parentName := some nmPelvis }]

def cexS6 : SkelState := buildHierarchyS cexJs6

/-- The spec's example vertex `(0.31, -0.1, 0.03)`. -/
def cexV6 : V3 := ⟨31 / 100, -(1 / 10), 3 / 100⟩

/-- A mesh of height exactly 1 containing the example vertex. -/
def cexMesh6 : List V3 := [cexV6, ⟨0, 0, -(3 / 10)⟩, ⟨0, 0, 7 / 10⟩]

theorem cexKb6_ankles :
    (keyBonesOf (bonesOf cexS6) (classifyAll (bonesOf cexS6))).ankles =
      [(Region.ankle_FL, 1, cexAnkleHead)] := rfl

theorem cexHeight6 : heightOf cexMesh6 = 1 := by
  norm_num [heightOf, bboxOf, cexMesh6, cexV6, min_def, max_def]

theorem cexAnkleStep6 :
    ankleStep 1 cexV6 none (Region.ankle_FL, 1, cexAnkleHead) =
      some (1, 1 / 2000) := by
  simp only [ankleStep, cexV6, cexAnkleHead]
  norm_num

theorem cexCheck6 :
    checkAnkleStrict (keyBonesOf (bonesOf cexS6) (classifyAll (bonesOf cexS6)))
      (heightOf cexMesh6) (cexMesh6.getD 0 0) = some 1 := by
  have hg : cexMesh6.getD 0 0 = cexV6 := rfl
  rw [checkAnkleStrict, hg, cexHeight6, cexKb6_ankles]
  rw [List.foldl_cons, List.foldl_nil, cexAnkleStep6]
  rfl

/-- C6 witness: the spec's concrete example — left-front ankle at
`(0.3, -0.1, 0.05)`, model height 1, vertex `(0.31, -0.1, 0.03)` — snaps to
weight 1 on the ankle bone (bone 1) and 0 elsewhere. -/
theorem c6_ankle_exclusive_witness :
    checkAnkleStrict (keyBonesOf (bonesOf cexS6) (classifyAll (bonesOf cexS6)))
      (heightOf cexMesh6) (cexMesh6.getD 0 0) = some 1 ∧
    heightOf cexMesh6 = 1 ∧
    (computeWeights (fun r => r) 4 (1 / 1000000) cexMesh6 cexS6).getD 0
      zeroRow 1 = 1 ∧
    ∀ j, j ≠ 1 → (computeWeights (fun r => r) 4 (1 / 1000000) cexMesh6
      cexS6).getD 0 zeroRow j = 0 := by
  have h := c6_ankle_exclusive (fun r => r) 4 (1 / 1000000) cexMesh6 cexS6 0
    (by decide) 1 cexCheck6
  exact ⟨cexCheck6, cexHeight6, h.1, h.2⟩

theorem allowedBones_ne_nil (rg : Region) (regions : List Region)
    (nearest : ℕ) : allowedBones rg regions nearest ≠ [] := by
  simp only [allowedBones]
  split
  · simp
  · next h => exact fun hc => h (by rw [hc]; rfl)

theorem normRow_zero_of_not_mem (bw : List (ℕ × ℚ)) (j : ℕ)
    (hj : j ∉ keysOf bw) : normRow bw j = 0 := by
  have h2 := keysOf_map_pair bw (fun p => p.2 / totalOf bw)
  rw [normRow]
  apply rowOfPairs_eq_zero
  rw [h2]
  exact hj

theorem distPairsB_ne_nil (v : V3) (bones : List Bone) (keep : ℕ → Bool)
    (i : ℕ) (hi : i < bones.length) (hk : keep i = true) :
    distPairsB v bones keep ≠ [] := by
  rw [distPairsB]
  intro hc
  rw [List.map_eq_nil_iff] at hc
  have hmem : ((i, bones.get ⟨i, hi⟩) : ℕ × Bone) ∈ bones.enum := by
    rw [List.mem_enum_iff_getElem?]
    exact List.getElem?_eq_getElem hi
  have hmf : ((i, bones.get ⟨i, hi⟩) : ℕ × Bone) ∈
      bones.enum.filter (fun pr => keep pr.1) :=
    List.mem_filter.mpr ⟨hmem, hk⟩
  rw [hc] at hmf
  exact absurd hmf (List.not_mem_nil _)

theorem foldl_some_exists {α β : Type _} (step : Option β → α → Option β)
    (C : α → Prop) (hstep : ∀ acc pr, step acc pr = acc ∨ C pr)
    (l : List α) :
    ∀ (acc : Option β) (m0 : β), l.foldl step acc = some m0 →
      acc ≠ none ∨ ∃ pr ∈ l, C pr := by
  induction l with
  | nil =>
    intro acc m0 hacc
    left
    rw [List.foldl_nil] at hacc
    rw [hacc]
    simp
  | cons pr rest ih =>
    intro acc m0 hacc
    rw [List.foldl_cons] at hacc
    cases ih (step acc pr) m0 hacc with
    | inl h1 =>
      cases hstep acc pr with
      | inl h2 => rw [h2] at h1; exact Or.inl h1
      | inr h3 => exact Or.inr ⟨pr, List.mem_cons_self pr rest, h3⟩
    | inr h2 =>
      obtain ⟨pr2, hpr2, hc⟩ := h2
      exact Or.inr ⟨pr2, List.mem_cons_of_mem pr hpr2, hc⟩

/-- `_compute_head_bounds` yields finite bounds only when some bone's region
is head or neck. -/
theorem headBoundsOf_some_exists (bones : List Bone) (regions : List Region)
    (len h : ℚ) (m : ℚ × ℚ)
    (hm : headBoundsOf bones regions len h = some m) :
    ∃ i, i < bones.length ∧
      (regions.getD i Region.spine = Region.head ∨
       regions.getD i Region.spine = Region.neck) := by
  rw [headBoundsOf] at hm
  obtain ⟨m0, hm0, _⟩ := Option.map_eq_some'.mp hm
  have hkey := foldl_some_exists
    (fun acc pr =>
      let rg := regions.getD pr.1 Region.spine
      if rg == Region.head || rg == Region.neck then
        (match acc with
         | none => some (min pr.2.sHead.y pr.2.eHead.y,
                         min pr.2.sHead.z pr.2.eHead.z)
         | some mm => some (min mm.1 (min pr.2.sHead.y pr.2.eHead.y),
                            min mm.2 (min pr.2.sHead.z pr.2.eHead.z)))
      else acc)
    (fun pr : ℕ × Bone => regions.getD pr.1 Region.spine = Region.head ∨
      regions.getD pr.1 Region.spine = Region.neck)
    (by
      intro acc pr
      dsimp only
      by_cases hc : (regions.getD pr.1 Region.spine == Region.head ||
          regions.getD pr.1 Region.spine == Region.neck) = true
      · right
        simp only [Bool.or_eq_true, beq_iff_eq] at hc
        exact hc
      · left
        rw [if_neg hc])
    bones.enum none m0 hm0
  cases hkey with
  | inl h1 => exact absurd rfl h1
  | inr h2 =>
    obtain ⟨pr, hpr, hreg⟩ := h2
    exact ⟨pr.1, mem_enum_fst_lt bones pr hpr, hreg⟩

/-- A vertex outside the allowed-bone set of the normal path gets zero
weight from `_compute_normal_weight`. -/
theorem normalRow_zero_of_not_allowed (maxInf : ℕ) (ε : ℚ) (bones : List Bone)
    (regions : List Region) (v : V3) (j : ℕ) (h1 : 1 ≤ maxInf)
    (hj : j ∉ allowedBones (regions.getD (nearestBone v bones) Region.spine)
        regions (nearestBone v bones)) :
    normalRow maxInf ε bones regions v j = 0 := by
  have hane := allowedBones_ne_nil
    (regions.getD (nearestBone v bones) Region.spine) regions
    (nearestBone v bones)
  have hcne : distPairsIdx v bones
      (allowedBones (regions.getD (nearestBone v bones) Region.spine) regions
        (nearestBone v bones)) ≠ [] := by
    intro hc
    have hlen := congrArg List.length hc
    rw [distPairsIdx, List.length_map, List.length_nil] at hlen
    exact hane (List.length_eq_zero.mp hlen)
  have htne := sortedTop_ne_nil maxInf _ h1 hcne
  simp only [normalRow]
  split
  · apply normRow_zero_of_not_mem
    rw [keysOf_rawWeights]
    intro hmem
    obtain ⟨p, hp, hpe⟩ := List.mem_map.mp hmem
    have hpc := mem_sortedTop _ _ _ hp
    have hkey : p.1 ∈ keysOf (distPairsIdx v bones
        (allowedBones (regions.getD (nearestBone v bones) Region.spine) regions
          (nearestBone v bones))) := List.mem_map_of_mem Prod.fst hpc
    rw [keysOf_distPairsIdx] at hkey
    exact hj (hpe ▸ hkey)
  · split
    · have hmem := headD_mem _ ((0 : ℕ), (0 : ℚ)) htne
      have hpc := mem_sortedTop _ _ _ hmem
      have hkey : ((sortedTop maxInf (distPairsIdx v bones
          (allowedBones (regions.getD (nearestBone v bones) Region.spine)
            regions (nearestBone v bones)))).headD ((0 : ℕ), (0 : ℚ))).1 ∈
          keysOf (distPairsIdx v bones
            (allowedBones (regions.getD (nearestBone v bones) Region.spine)
              regions (nearestBone v bones))) :=
        List.mem_map_of_mem Prod.fst hpc
      rw [keysOf_distPairsIdx] at hkey
      rw [deltaRow, if_neg]
      intro hjj
      exact hj (by rw [hjj]; exact hkey)
    · next h2 =>
      have hfalse : (sortedTop maxInf (distPairsIdx v bones
          (allowedBones (regions.getD (nearestBone v bones) Region.spine)
            regions (nearestBone v bones)))).isEmpty = false := by
        cases hemp : (sortedTop maxInf (distPairsIdx v bones
            (allowedBones (regions.getD (nearestBone v bones) Region.spine)
              regions (nearestBone v bones)))).isEmpty
        · rfl
        · exact absurd (List.isEmpty_iff.mp hemp) htne
      exact absurd (by rw [hfalse]; rfl) h2

/-- A vertex index excluded by the keep predicate gets zero weight from
`_compute_weight_excluding_bones`, provided some bone is kept (so the
all-bones fallback is not taken). -/
theorem exclRow_zero_of_not_keep (maxInf : ℕ) (ε : ℚ) (bones : List Bone)
    (keep : ℕ → Bool) (v : V3) (j : ℕ) (h1 : 1 ≤ maxInf)
    (hne : distPairsB v bones keep ≠ []) (hj : keep j = false) :
    exclRow maxInf ε bones keep v j = 0 := by
  have htne := sortedTop_ne_nil maxInf _ h1 hne
  simp only [exclRow]
  rw [if_neg (fun hc => hne (List.isEmpty_iff.mp hc))]
  rw [if_neg (fun hc => htne (List.isEmpty_iff.mp hc))]
  split
  · apply normRow_zero_of_not_mem
    rw [keysOf_rawWeights]
    intro hmem
    obtain ⟨p, hp, hpe⟩ := List.mem_map.mp hmem
    have hpc := mem_sortedTop _ _ _ hp
    have hkt := (distPairsB_mem v bones keep p hpc).2.2
    rw [hpe, hj] at hkt
    exact absurd hkt (by simp)
  · have hmem := headD_mem _ ((0 : ℕ), (0 : ℚ)) htne
    have hpc := mem_sortedTop _ _ _ hmem
    have hkt := (distPairsB_mem v bones keep _ hpc).2.2
    rw [deltaRow, if_neg]
    intro hjj
    rw [← hjj, hj] at hkt
    exact absurd hkt (by simp)

/-- C8: a vertex whose nearest bone (by point-to-segment distance) is tagged
`front_leg_L` and which falls in neither the ankle-snap zone nor the
shoulder-enhancement zone gets zero weight on every bone tagged `tail` or
`back_leg_R`: the normal path restricts candidates to
`front_leg_L`/`spine` bones plus the nearest bone itself, and the
head-region path restricts them to `head`/`neck` bones. -/
theorem c8_front_leg_isolation (pw : ℚ → ℚ) (maxInf : ℕ) (ε : ℚ)
    (mesh : List V3) (s : SkelState) (h1 : 1 ≤ maxInf) (hε : 0 ≤ ε)
    (i : ℕ) (hi : i < mesh.length)
    (ha : checkAnkleStrict (keyBonesOf (bonesOf s) (classifyAll (bonesOf s)))
        (heightOf mesh) (mesh.getD i 0) = none)
    (hsh : isShoulderEnhanced (keyBonesOf (bonesOf s) (classifyAll (bonesOf s)))
        (mesh.getD i 0) = false)
    (hnr : (classifyAll (bonesOf s)).getD
        (nearestBone (mesh.getD i 0) (bonesOf s)) Region.spine =
        Region.front_leg_L)
    (j : ℕ)
    (hj : (classifyAll (bonesOf s)).getD j Region.spine = Region.tail ∨
          (classifyAll (bonesOf s)).getD j Region.spine = Region.back_leg_R) :
    (computeWeights pw maxInf ε mesh s).getD i zeroRow j = 0 := by
  have hbne : bonesOf s ≠ [] := by
    intro hc
    rw [hc] at hnr
    simp [classifyAll] at hnr
  rw [computeWeights_getD pw maxInf ε mesh s i hi]
  have hv : vertexRow pw maxInf ε (bonesOf s) (classifyAll (bonesOf s))
      (keyBonesOf (bonesOf s) (classifyAll (bonesOf s))) (heightOf mesh)
      (headBoundsOf (bonesOf s) (classifyAll (bonesOf s)) (lengthOf mesh)
        (heightOf mesh)) (mesh.getD i 0) =
      (if isInHeadRegion (headBoundsOf (bonesOf s) (classifyAll (bonesOf s))
          (lengthOf mesh) (heightOf mesh)) (mesh.getD i 0) = true then
        exclRow maxInf ε (bonesOf s)
          (fun k => !isExcludedRegion ((classifyAll (bonesOf s)).getD k
            Region.spine)) (mesh.getD i 0)
      else normalRow maxInf ε (bonesOf s) (classifyAll (bonesOf s))
        (mesh.getD i 0)) := by
    rw [vertexRow, ha, hsh]
    rfl
  rw [hv]
  by_cases hhr : isInHeadRegion (headBoundsOf (bonesOf s)
      (classifyAll (bonesOf s)) (lengthOf mesh) (heightOf mesh))
      (mesh.getD i 0) = true
  · rw [if_pos hhr]
    cases hbo : headBoundsOf (bonesOf s) (classifyAll (bonesOf s))
        (lengthOf mesh) (heightOf mesh) with
    | none =>
      rw [hbo] at hhr
      simp [isInHeadRegion] at hhr
    | some m =>
      obtain ⟨i0, hi0, hreg0⟩ := headBoundsOf_some_exists (bonesOf s)
        (classifyAll (bonesOf s)) (lengthOf mesh) (heightOf mesh) m hbo
      have hk0 : (fun k => !isExcludedRegion ((classifyAll (bonesOf s)).getD k
          Region.spine)) i0 = true := by
        show (!isExcludedRegion ((classifyAll (bonesOf s)).getD i0
          Region.spine)) = true
        cases hreg0 with
        | inl hh => rw [hh]; rfl
        | inr hh => rw [hh]; rfl
      have hne := distPairsB_ne_nil (mesh.getD i 0) (bonesOf s)
        (fun k => !isExcludedRegion ((classifyAll (bonesOf s)).getD k
          Region.spine)) i0 hi0 hk0
      have hkj : (fun k => !isExcludedRegion ((classifyAll (bonesOf s)).getD k
          Region.spine)) j = false := by
        show (!isExcludedRegion ((classifyAll (bonesOf s)).getD j
          Region.spine)) = false
        cases hj with
        | inl hh => rw [hh]; rfl
        | inr hh => rw [hh]; rfl
      have hgood := exclRow_good maxInf ε (bonesOf s)
        (fun k => !isExcludedRegion ((classifyAll (bonesOf s)).getD k
          Region.spine)) (mesh.getD i 0) h1 hε hbne
      rw [validateRow_of_sum_one ε (bonesOf s).length _ hgood.2.1]
      exact exclRow_zero_of_not_keep maxInf ε (bonesOf s) _ (mesh.getD i 0) j
        h1 hne hkj
  · rw [if_neg hhr]
    have hgood := normalRow_good maxInf ε (bonesOf s) (classifyAll (bonesOf s))
      (mesh.getD i 0) h1 hε hbne (classifyAll_length (bonesOf s))
    rw [validateRow_of_sum_one ε (bonesOf s).length _ hgood.2.1]
    apply normalRow_zero_of_not_allowed maxInf ε (bonesOf s)
      (classifyAll (bonesOf s)) (mesh.getD i 0) j h1
    intro hmem
    cases allowedBones_mem ((classifyAll (bonesOf s)).getD
        (nearestBone (mesh.getD i 0) (bonesOf s)) Region.spine)
        (classifyAll (bonesOf s)) (nearestBone (mesh.getD i 0) (bonesOf s)) j
        hmem with
    | inl hcase =>
      obtain ⟨hjlt, hall⟩ := hcase
      rw [hnr] at hall
      cases hj with
      | inl hh => rw [hh] at hall; exact absurd hall (by decide)
      | inr hh => rw [hh] at hall; exact absurd hall (by decide)
    | inr hjn =>
      rw [hjn, hnr] at hj
      cases hj with
      | inl hh => exact absurd hh (by decide)
      | inr hh => exact absurd hh (by decide)

theorem V3.smul_def (q : ℚ) (a : V3) : q • a = ⟨q * a.x, q * a.y, q * a.z⟩ := rfl

/-- A vertex on the left-front upper-leg bone, away from the ankle and (for
the single-vertex mesh, of height 0) outside every special zone. -/
def cexV8 : V3 := ⟨3 / 20, -(1 / 20), 2 / 5⟩

def cexMesh8 : List V3 := [cexV8]

def cexB0 : Bone :=
  { sName := nmPelvis, eName := nmLFLeg, sHead := ⟨0, 0, 1 / 2⟩,
    eHead := ⟨3 / 10, -(1 / 10), 3 / 10⟩, eIdx := 1 }

def cexB1 : Bone :=
  { sName := nmLFLeg, eName := nmLFAnkle, sHead := ⟨3 / 10, -(1 / 10), 3 / 10⟩,
    eHead := cexAnkleHead, eIdx := 2 }

def cexB2 : Bone :=
  { sName := nmPelvis, eName := nmTail6, sHead := ⟨0, 0, 1 / 2⟩,
    eHead := ⟨0, 2 / 5, 1 / 2⟩, eIdx := 3 }

theorem cexBones6 : bonesOf cexS6 = [cexB0, cexB1, cexB2] := rfl

theorem cexHeight8 : heightOf cexMesh8 = 0 := by
  norm_num [heightOf, bboxOf, cexMesh8, cexV8]

theorem cexAnkleStep8 :
    ankleStep 0 cexV8 none (Region.ankle_FL, 1, cexAnkleHead) = none := by
  simp only [ankleStep, cexV8, cexAnkleHead]
  norm_num

theorem cexCheck8 :
    checkAnkleStrict (keyBonesOf (bonesOf cexS6) (classifyAll (bonesOf cexS6)))
      (heightOf cexMesh8) (cexMesh8.getD 0 0) = none := by
  have hg : cexMesh8.getD 0 0 = cexV8 := rfl
  rw [checkAnkleStrict, hg, cexHeight8, cexKb6_ankles]
  rw [List.foldl_cons, List.foldl_nil, cexAnkleStep8]
  rfl

theorem cexD0 : psd2 cexV8 cexB0.sHead cexB0.eHead = 0 := by
  norm_num [psd2, dotV, dist2, cexB0, cexV8, V3.sub_def, V3.add_def,
    V3.smul_def, min_def, max_def]

theorem cexD1 : psd2 cexV8 cexB1.sHead cexB1.eHead = 7 / 200 := by
  norm_num [psd2, dotV, dist2, cexB1, cexV8, cexAnkleHead, V3.sub_def,
    V3.add_def, V3.smul_def, min_def, max_def]

theorem cexD2 : psd2 cexV8 cexB2.sHead cexB2.eHead = 7 / 200 := by
  norm_num [psd2, dotV, dist2, cexB2, cexV8, V3.sub_def, V3.add_def,
    V3.smul_def, min_def, max_def]

theorem cexEnum8 : ([cexB0, cexB1, cexB2] : List Bone).enum =
    [(0, cexB0), (1, cexB1), (2, cexB2)] := rfl

theorem cexNearest8 : nearestBone (cexMesh8.getD 0 0) (bonesOf cexS6) = 0 := by
  have hg : cexMesh8.getD 0 0 = cexV8 := rfl
  rw [hg, cexBones6, nearestBone, cexEnum8]
  simp only [List.foldl_cons, List.foldl_nil]
  norm_num [cexD0, cexD1, cexD2]

theorem cexNr8 : (classifyAll (bonesOf cexS6)).getD
    (nearestBone (cexMesh8.getD 0 0) (bonesOf cexS6)) Region.spine =
    Region.front_leg_L := by
  rw [cexNearest8]
  rfl

/-- C8 witness: on the pelvis/left-front-leg/ankle/tail skeleton, a vertex
on the upper left-front leg bone (nearest bone tagged `front_leg_L`, outside
the ankle and shoulder zones) gets weight `0` on the tail bone (bone 2). -/
theorem c8_front_leg_isolation_witness :
    checkAnkleStrict (keyBonesOf (bonesOf cexS6) (classifyAll (bonesOf cexS6)))
      (heightOf cexMesh8) (cexMesh8.getD 0 0) = none ∧
    isShoulderEnhanced (keyBonesOf (bonesOf cexS6)
      (classifyAll (bonesOf cexS6))) (cexMesh8.getD 0 0) = false ∧
    (classifyAll (bonesOf cexS6)).getD
      (nearestBone (cexMesh8.getD 0 0) (bonesOf cexS6)) Region.spine =
      Region.front_leg_L ∧
    (classifyAll (bonesOf cexS6)).getD 2 Region.spine = Region.tail ∧
    (computeWeights (fun r => r) 4 (1 / 1000000) cexMesh8 cexS6).getD 0
      zeroRow 2 = 0 :=
  ⟨cexCheck8, rfl, cexNr8, rfl,
    c8_front_leg_isolation (fun r => r) 4 (1 / 1000000) cexMesh8 cexS6
      (by norm_num) (by norm_num) 0 (by decide) cexCheck8 rfl cexNr8 2
      (Or.inl rfl)⟩
